import Mathlib

/-!
Verification development for the ethp2psim message-propagation simulator.

The repository ships only documentation (READMEs, Sphinx sources, notebooks)
in this tree; the Python modules (network.py, protocols.py, adversary.py,
simulator.py) are not present.  Every behavioural definition below is
therefore modelled from the specification and from the repository's own
documentation, as indicated by the doc comments.
-/

namespace EthP2PSim

/-- Modelled from the spec: modulus of the explicitly seeded linear
congruential generator standing in for the missing random-state handling of
the repository (the Python sources drawing randomness are not under src,
only their documentation). -/
def rngMod : Nat := 2147483648

/-- Modelled from the spec: one step of the explicitly seeded generator that
is threaded through every constructor; returns the drawn value (strictly
below rngMod) together with the new generator state. -/
def rngNext (s : Nat) : Nat × Nat :=
  let s2 := (1103515245 * s + 12345) % rngMod
  (s2, s2)

/-- Modelled from the spec: derivation of an independent pseudo-random value
from the seed and two tags, used for per-node randomized choices (fan-out
subset selection, anonymity-graph wiring) so that identical seeds reproduce
identical choices. -/
def mix (seed a b : Nat) : Nat :=
  (rngNext (seed + 1000003 * a + 7919 * b)).1

/-- Deterministic total order on nodes induced by a pseudo-random key, with
ties broken by ascending node id. -/
def nodeKeyLE (key : Nat → Nat) (a b : Nat) : Prop :=
  key a < key b ∨ (key a = key b ∧ a ≤ b)

instance nodeKeyLE.decRel (key : Nat → Nat) : DecidableRel (nodeKeyLE key) :=
  fun a b => by unfold nodeKeyLE; infer_instance

instance nodeKeyLE.total (key : Nat → Nat) : IsTotal Nat (nodeKeyLE key) :=
  ⟨by intro a b; unfold nodeKeyLE; omega⟩

instance nodeKeyLE.trans (key : Nat → Nat) : IsTrans Nat (nodeKeyLE key) :=
  ⟨by intro a b c; unfold nodeKeyLE; omega⟩

/-- Sort a list of nodes by a pseudo-random key (a seeded shuffle realized as
an argsort over derived keys). -/
def sortByKey (key : Nat → Nat) (l : List Nat) : List Nat :=
  l.insertionSort (nodeKeyLE key)

/-- Ceiling of the integer square root, the fan-out size used by the sqrt
broadcast mode. -/
def ceilSqrt (n : Nat) : Nat :=
  if Nat.sqrt n * Nat.sqrt n = n then Nat.sqrt n else Nat.sqrt n + 1

/-- Modelled from the spec: the external topology provider's data — node set
of size numNodes, neighbour adjacency, per-edge latency and per-node sampling
weight (the Python network.py module is not under src). -/
structure Network where
  numNodes : Nat
  adj : Nat → List Nat
  latency : Nat → Nat → ℤ
  nodeWeight : Nat → ℤ

/-- Well-formedness of a topology: neighbours are valid node ids. -/
def Network.wf (net : Network) : Prop :=
  ∀ u, ∀ v ∈ net.adj u, v < net.numNodes

/-- Broadcast fan-out mode: either all neighbours or a sampled subset of size
ceil(sqrt(degree)). -/
inductive BroadcastMode
  | all
  | sqrt
deriving DecidableEq

/-- Modelled from the spec: fan-out of the flooding primitive — all
neighbours in mode all, and a uniformly sampled subset of size
ceil(sqrt(degree)) in mode sqrt; the sample is derived deterministically from
the protocol seed and the node id so that identical seeds reproduce identical
fan-out choices. -/
def fanout (seed : Nat) (mode : BroadcastMode) (node : Nat) (nbrs : List Nat) : List Nat :=
  match mode with
  | .all => nbrs
  | .sqrt => (sortByKey (fun v => mix seed node v) nbrs).take (ceilSqrt nbrs.length)

/-- Propagation phase tag of an arrival event. -/
inductive Phase
  | stem
  | fluff
deriving DecidableEq

/-- Modelled from the spec: ArrivalEvent — node, arrival logical time, hop
count, phase tag and predecessor node if known, recorded at most once per
node per message (the Python message/protocol modules are not under src). -/
structure ArrivalEvent where
  node : Nat
  time : ℤ
  hop : Nat
  phase : Phase
  pred : Option Nat
deriving DecidableEq

/-- Pending arrival sitting in the time-ordered priority queue of the
flooding loop. -/
structure QEvent where
  time : ℤ
  node : Nat
  hop : Nat
  pred : Option Nat
deriving DecidableEq

/-- Strict priority order on pending events: earlier time first, ties at
equal time broken by ascending node id. -/
def qlt (a b : QEvent) : Prop :=
  a.time < b.time ∨ (a.time = b.time ∧ a.node < b.node)

instance qlt.decRel : DecidableRel qlt :=
  fun a b => by unfold qlt; infer_instance

/-- Select the minimum pending event of the queue under qlt. -/
def minQ (e : QEvent) (q : List QEvent) : QEvent :=
  q.foldl (fun best x => if qlt x best then x else best) e

/-- Modelled from the spec: pop the earliest-time pending event (deterministic
tie-break by ascending node id) from the priority queue, returning it and the
remaining queue. -/
def popMin (q : List QEvent) : Option (QEvent × List QEvent) :=
  match q with
  | [] => none
  | e :: rest =>
    let m := minQ e rest
    some (m, (e :: rest).erase m)

/-- Static configuration of one flooding run: topology, seed, fan-out mode,
the predicate marking controlled active adversary nodes that stop
forwarding, and the optional coverage cap (number of recorded arrivals at
which the run truncates). -/
structure FloodCfg where
  net : Network
  seed : Nat
  mode : BroadcastMode
  blocked : Nat → Bool
  cap : Option Nat

/-- Mutable state of the flooding loop: pending-event queue and the
append-only arrival log. -/
structure FloodState where
  queue : List QEvent
  arrivals : List ArrivalEvent
deriving DecidableEq

/-- Nodes that already have a recorded arrival. -/
def arrivedNodes (st : FloodState) : List Nat :=
  st.arrivals.map ArrivalEvent.node

/-- Whether the number of recorded arrivals has reached the coverage cap. -/
def capReached (cap : Option Nat) (k : Nat) : Bool :=
  match cap with
  | none => false
  | some c => decide (c ≤ k)

/-- Pending arrivals scheduled at the fan-out neighbours of a node that just
recorded its arrival, each at the current time plus the edge latency. -/
def schedule (cfg : FloodCfg) (e : QEvent) : List QEvent :=
  (fanout cfg.seed cfg.mode e.node (cfg.net.adj e.node)).map
    (fun v => ⟨e.time + cfg.net.latency e.node v, v, e.hop + 1, some e.node⟩)

/-- Modelled from the spec: one iteration of the shared flooding primitive —
pop the earliest pending event; if its node already has a recorded arrival,
discard it (no re-broadcast); otherwise record the arrival and, unless the
node is a controlled active adversary node, schedule arrivals at its fan-out
neighbours; if the coverage cap is reached, discard all remaining pending
events. -/
def floodStep (cfg : FloodCfg) (st : FloodState) : FloodState :=
  match popMin st.queue with
  | none => st
  | some (e, rest) =>
    if e.node ∈ arrivedNodes st then ⟨rest, st.arrivals⟩
    else
      let arr2 := st.arrivals ++ [⟨e.node, e.time, e.hop, Phase.fluff, e.pred⟩]
      let q2 := if cfg.blocked e.node then rest else rest ++ schedule cfg e
      if capReached cfg.cap arr2.length then ⟨[], arr2⟩ else ⟨q2, arr2⟩

/-- Modelled from the spec: the discrete-event flooding loop, iterated with
explicit fuel (the loop terminates when the queue is empty; fuel makes the
recursion structural). -/
def flood (cfg : FloodCfg) : Nat → FloodState → FloodState
  | 0, st => st
  | fuel + 1, st => flood cfg fuel (floodStep cfg st)

/-- Initial flooding state: the message's entry node queued at its entry
time. -/
def initState (src : Nat) : FloodState :=
  ⟨[⟨0, src, 0, none⟩], []⟩

/-- Modelled from the spec: Dandelion anonymity (line) graph, built once per
protocol instance — a seeded shuffle of the node set, read as a cycle, so
that every node has exactly one successor and one predecessor. -/
def lineGraphCycle (seed n : Nat) : List Nat :=
  sortByKey (fun v => mix seed 0 v) (List.range n)

/-- Successor of a node in the cycle described by a list (the element after
the node's position, wrapping around). -/
def cycleSucc (l : List Nat) (v : Nat) : Nat :=
  l.getD ((l.indexOf v + 1) % l.length) v

/-- Modelled from the spec: Bernoulli draw with success probability p from
the explicitly seeded generator. -/
def bernoulli (p : ℚ) (rng : Nat) : Bool × Nat :=
  (decide ((((rngNext rng).1 : ℤ)) * (p.den : ℤ) < p.num * (rngMod : ℤ)), (rngNext rng).2)

/-- Result of the anonymity-phase walk: recorded stem arrivals, the exit
point handed to the flooding phase, the final generator state, and whether a
controlled active adversary node censored the message during the walk. -/
structure StemResult where
  events : List ArrivalEvent
  exitNode : Nat
  exitTime : ℤ
  exitHop : Nat
  exitPred : Option Nat
  rng : Nat
  censored : Bool
deriving DecidableEq

/-- Modelled from the spec: the anonymity-phase walk shared by the
Dandelion-family and onion-routing protocols.  At each hop the protocol's
step function decides (possibly consuming randomness) whether to exit to the
flooding phase at the current node, and otherwise names the next hop.  A
first arrival is recorded at each newly reached node; a node that already
saw the message records nothing.  A controlled active adversary node still
records its own arrival but stops the walk (the message is censored).  Fuel
is the hard hop-count ceiling forcing exit to the flooding phase. -/
def anonWalk (stepF : Nat → Nat → Nat → Bool × Nat × Nat) (blocked : Nat → Bool)
    (lat : Nat → Nat → ℤ) :
    Nat → Nat → ℤ → Nat → Option Nat → Nat → List Nat → StemResult
  | 0, cur, t, hop, pred, rng, _ => ⟨[], cur, t, hop, pred, rng, false⟩
  | fuel + 1, cur, t, hop, pred, rng, visited =>
    let s := stepF cur hop rng
    if s.1 then ⟨[], cur, t, hop, pred, s.2.2, false⟩
    else
      let nxt := s.2.1
      let rng2 := s.2.2
      let t2 := t + lat cur nxt
      if nxt ∈ visited then
        anonWalk stepF blocked lat fuel nxt t2 (hop + 1) (some cur) rng2 visited
      else
        let ev : ArrivalEvent := ⟨nxt, t2, hop + 1, Phase.stem, some cur⟩
        if blocked nxt then ⟨[ev], nxt, t2, hop + 1, some cur, rng2, true⟩
        else
          let res := anonWalk stepF blocked lat fuel nxt t2 (hop + 1) (some cur) rng2 (nxt :: visited)
          ⟨ev :: res.events, res.exitNode, res.exitTime, res.exitHop, res.exitPred, res.rng,
            res.censored⟩

/-- Modelled from the spec: one full message propagation — the
anonymity-phase walk from the source followed, unless the message was
censored, by the shared flooding loop started at the walk's exit point.  A
walk of zero hops floods exactly like plain broadcast from the source. -/
def propagateCore (stepF : Nat → Nat → Nat → Bool × Nat × Nat) (blocked : Nat → Bool)
    (net : Network) (seed : Nat) (mode : BroadcastMode) (cap : Option Nat) (src : Nat)
    (rng0 : Nat) (floodFuel : Nat) : List ArrivalEvent :=
  let cfg : FloodCfg := ⟨net, seed, mode, blocked, cap⟩
  let w := anonWalk stepF blocked net.latency net.numNodes src 0 0 none rng0 [src]
  if w.censored then ⟨src, 0, 0, Phase.stem, none⟩ :: w.events
  else if w.exitHop = 0 then (flood cfg floodFuel (initState src)).arrivals
  else
    let initArr := ⟨src, 0, 0, Phase.stem, none⟩ :: w.events
    (flood cfg floodFuel
      ⟨schedule cfg ⟨w.exitTime, w.exitNode, w.exitHop, w.exitPred⟩, initArr⟩).arrivals

/-- Modelled from the spec: BroadcastProtocol — no anonymity graph, messages
spread only on the P2P network (the Python protocols.py module is not under
src). -/
structure BroadcastProtocol where
  net : Network
  broadcast_mode : BroadcastMode
  seed : Nat

/-- Modelled from the spec: plain broadcast propagation, the shared flooding
primitive started at the message source at time zero. -/
def BroadcastProtocol.propagate (pr : BroadcastProtocol) (blocked : Nat → Bool)
    (cap : Option Nat) (src : Nat) (fuel : Nat) : List ArrivalEvent :=
  (flood ⟨pr.net, pr.seed, pr.broadcast_mode, blocked, cap⟩ fuel (initState src)).arrivals

/-- Modelled from the spec: DandelionProtocol — spreading probability, fan-out
mode, seed and the anonymity cycle built once at construction. -/
structure DandelionProtocol where
  net : Network
  spreading_proba : ℚ
  broadcast_mode : BroadcastMode
  seed : Nat
  anonCycle : List Nat

/-- Modelled from the spec: DandelionProtocol construction — a spreading
probability outside [0,1] is rejected with an error at build time, never
silently clamped; on success the anonymity line graph is built once from the
seed. -/
def DandelionProtocol.build (net : Network) (p : ℚ) (mode : BroadcastMode) (seed : Nat) :
    Except String DandelionProtocol :=
  if p < 0 ∨ 1 < p then .error "spreading_proba must be in [0,1]"
  else .ok ⟨net, p, mode, seed, lineGraphCycle seed net.numNodes⟩

/-- Dandelion anonymity-phase step: draw Bernoulli(spreading_proba); success
exits to the flooding phase, failure advances to the unique anonymity-graph
successor. -/
def dandelionStep (p : ℚ) (cyc : List Nat) (cur : Nat) (_hop : Nat) (rng : Nat) :
    Bool × Nat × Nat :=
  let b := bernoulli p rng
  (b.1, cycleSucc cyc cur, b.2)

/-- Stem length of one Dandelion walk from a source (number of stem hops
before the exit to the flooding phase). -/
def DandelionProtocol.stemLength (pr : DandelionProtocol) (src : Nat) (rng0 : Nat) : Nat :=
  (anonWalk (dandelionStep pr.spreading_proba pr.anonCycle) (fun _ => false) pr.net.latency
    pr.net.numNodes src 0 0 none rng0 [src]).exitHop

/-- Modelled from the spec: Dandelion propagation — stem walk on the
anonymity cycle followed by the flooding phase. -/
def DandelionProtocol.propagate (pr : DandelionProtocol) (blocked : Nat → Bool)
    (cap : Option Nat) (src : Nat) (rng0 : Nat) (floodFuel : Nat) : List ArrivalEvent :=
  propagateCore (dandelionStep pr.spreading_proba pr.anonCycle) blocked pr.net pr.seed
    pr.broadcast_mode cap src rng0 floodFuel

/-- Modelled from the spec: randomized wiring of an approximately d-regular
directed anonymity graph (used with d = 4 by Dandelion++). -/
def approxRegularOut (n d seed : Nat) (v : Nat) : List Nat :=
  (List.range d).map (fun i => (v + 1 + mix seed v i % (n - 1)) % n)

/-- Modelled from the spec: construction of the requested approximately
regular anonymity graph — degree/parity combinations that cannot form the
invariant (degree at least the node count, or odd total degree) are rejected
with an error at build time. -/
def buildApproxRegularOut (n d seed : Nat) : Except String (Nat → List Nat) :=
  if n ≤ d ∨ (n * d) % 2 = 1 then .error "cannot form the requested anonymity graph"
  else .ok (approxRegularOut n d seed)

/-- Modelled from the spec: DandelionPlusPlusProtocol — like Dandelion but
the anonymity graph is an approximately 4-regular graph and the stem
successor is drawn uniformly among the current node's anonymity
out-edges. -/
structure DandelionPlusPlusProtocol where
  net : Network
  spreading_proba : ℚ
  broadcast_mode : BroadcastMode
  seed : Nat
  anonOut : Nat → List Nat

/-- Modelled from the spec: DandelionPlusPlus construction with the same
build-time validation of the spreading probability and of the anonymity
graph request. -/
def DandelionPlusPlusProtocol.build (net : Network) (p : ℚ) (mode : BroadcastMode)
    (seed : Nat) : Except String DandelionPlusPlusProtocol :=
  if p < 0 ∨ 1 < p then .error "spreading_proba must be in [0,1]"
  else
    match buildApproxRegularOut net.numNodes 4 seed with
    | .error msg => .error msg
    | .ok outs => .ok ⟨net, p, mode, seed, outs⟩

/-- Dandelion++ anonymity-phase step: identical Bernoulli rule, successor
drawn uniformly among the current node's anonymity out-edges. -/
def dppStep (p : ℚ) (outs : Nat → List Nat) (cur : Nat) (_hop : Nat) (rng : Nat) :
    Bool × Nat × Nat :=
  let b := bernoulli p rng
  let r := rngNext b.2
  let cand := outs cur
  (b.1, cand.getD (r.1 % cand.length) cur, r.2)

/-- Modelled from the spec: OnionRoutingProtocol — per-message relay chain of
num_relayers distinct nodes; the last relay enters the flooding phase as the
plaintext broadcaster. -/
structure OnionRoutingProtocol where
  net : Network
  num_relayers : Nat
  broadcast_mode : BroadcastMode
  seed : Nat

/-- Modelled from the spec: OnionRouting construction — num_relayers must be
smaller than the node count, rejected with an error at build time
otherwise. -/
def OnionRoutingProtocol.build (net : Network) (k : Nat) (mode : BroadcastMode) (seed : Nat) :
    Except String OnionRoutingProtocol :=
  if net.numNodes ≤ k then .error "num_relayers must be smaller than the node count"
  else .ok ⟨net, k, mode, seed⟩

/-- Modelled from the spec: the ephemeral per-message relay chain — distinct
nodes other than the source, sampled by a seeded shuffle. -/
def relayChain (seed msgId n k src : Nat) : List Nat :=
  ((sortByKey (fun v => mix (seed + 77777 * msgId) 1 v) (List.range n)).filter
    (fun v => v ≠ src)).take k

/-- Onion-routing anonymity-phase step: each relay removes one layer and
forwards to the next relay; the walk exits once the chain is exhausted. -/
def onionStep (relays : List Nat) (cur : Nat) (hop : Nat) (rng : Nat) : Bool × Nat × Nat :=
  (decide (relays.length ≤ hop), relays.getD hop cur, rng)

/-- Protocol selector of one simulation configuration. -/
inductive ProtocolCfg
  | broadcast (mode : BroadcastMode)
  | dandelion (p : ℚ) (mode : BroadcastMode)
  | dandelionPP (p : ℚ) (mode : BroadcastMode)
  | onion (k : Nat) (mode : BroadcastMode)
deriving DecidableEq

/-- Fan-out mode of a protocol configuration. -/
def protoMode : ProtocolCfg → BroadcastMode
  | .broadcast m => m
  | .dandelion _ m => m
  | .dandelionPP _ m => m
  | .onion _ m => m

/-- Anonymity-phase step function of a protocol configuration (plain
broadcast exits immediately at the source). -/
def protoStepF (pcfg : ProtocolCfg) (net : Network) (seed msgId src : Nat) :
    Nat → Nat → Nat → Bool × Nat × Nat :=
  match pcfg with
  | .broadcast _ => fun cur _ rng => (true, cur, rng)
  | .dandelion p _ => dandelionStep p (lineGraphCycle seed net.numNodes)
  | .dandelionPP p _ => dppStep p (approxRegularOut net.numNodes 4 seed)
  | .onion k _ => onionStep (relayChain seed msgId net.numNodes k src)

/-- Per-message generator state derived from the simulation seed. -/
def msgRng (seed msgId : Nat) : Nat :=
  mix seed 3 msgId

/-- Modelled from the spec: propagation of one message under a protocol
configuration, with the blocking predicate of the (possibly active)
adversary and the optional coverage cap. -/
def propagateMsg (pcfg : ProtocolCfg) (net : Network) (seed : Nat) (blocked : Nat → Bool)
    (cap : Option Nat) (msgId src : Nat) (floodFuel : Nat) : List ArrivalEvent :=
  propagateCore (protoStepF pcfg net seed msgId src) blocked net seed (protoMode pcfg) cap src
    (msgRng seed msgId) floodFuel

/-- Modelled from the spec: EavesdropEvent — what a controlled node observed
about a message: its own arrival time and the predecessor it heard the
message from (the Python adversary.py module is not under src). -/
structure EavesdropEvent where
  node : Nat
  time : ℤ
  pred : Option Nat
deriving DecidableEq

/-- Modelled from the spec: Adversary — the controlled-node set and the
active flag (active nodes stop forwarding). -/
structure Adversary where
  nodes : List Nat
  active : Bool
deriving DecidableEq

/-- Modelled from the spec: Adversary construction — an adversary ratio
outside [0,1] is rejected with an error at construction time, never silently
clamped; otherwise ratio times the node count nodes are selected by a seeded
shuffle. -/
def Adversary.build (net : Network) (ratio : ℚ) (active : Bool) (seed : Nat) :
    Except String Adversary :=
  if ratio < 0 ∨ 1 < ratio then .error "adversary ratio must be in [0,1]"
  else
    let cnt := ((ratio.num * (net.numNodes : ℤ)).fdiv (ratio.den : ℤ)).toNat
    .ok ⟨(sortByKey (fun v => mix seed 2 v) (List.range net.numNodes)).take cnt, active⟩

/-- Modelled from the spec: the adversary's observation, a pure filter of the
arrival log to its controlled nodes. -/
def Adversary.observe (adv : Adversary) (log : List ArrivalEvent) : List EavesdropEvent :=
  (log.filter (fun e => decide (e.node ∈ adv.nodes))).map (fun e => ⟨e.node, e.time, e.pred⟩)

/-- Estimator strategy used by the evaluator. -/
inductive Estimator
  | first_reach
  | first_sent
  | dummy
deriving DecidableEq

/-- Priority order on eavesdrop events: earlier observation first, ties by
ascending node id. -/
def eavesLT (a b : EavesdropEvent) : Prop :=
  a.time < b.time ∨ (a.time = b.time ∧ a.node < b.node)

instance eavesLT.decRel : DecidableRel eavesLT :=
  fun a b => by unfold eavesLT; infer_instance

/-- Earliest eavesdrop event of an observation log. -/
def earliestObs : List EavesdropEvent → Option EavesdropEvent
  | [] => none
  | e :: rest =>
    some (rest.foldl (fun best x => if eavesLT x best then x else best) e)

/-- Modelled from the spec: the first_reach candidate — the predecessor
reported by the earliest eavesdrop event of any controlled node (the
observing node itself when the message had no predecessor). -/
def firstReachCandidate (obs : List EavesdropEvent) : Option Nat :=
  (earliestObs obs).map (fun e => match e.pred with | some p => p | none => e.node)

/-- Modelled from the spec: for each controlled node's observed predecessor,
the estimated send time is the observed arrival time minus the edge latency
between the predecessor and the controlled node. -/
def firstSentPairs (net : Network) (obs : List EavesdropEvent) : List (Nat × ℤ) :=
  obs.filterMap (fun e => e.pred.map (fun p => (p, e.time - net.latency p e.node)))

/-- Fold computing the minimum of a head element and a list. -/
def minFold (t : ℤ) (ts : List ℤ) : ℤ :=
  ts.foldl min t

/-- Earliest estimated send time reported for one candidate across all
controlled nodes. -/
def candEst (pairs : List (Nat × ℤ)) (c : Nat) : ℤ :=
  match (pairs.filter (fun q => decide (q.1 = c))).map Prod.snd with
  | [] => 0
  | t :: ts => minFold t ts

/-- Ranking order of the first_sent estimator: earliest estimated send time
first, equal-earliest ties broken by ascending node id. -/
def rankLE (a b : Nat × ℤ) : Prop :=
  a.2 < b.2 ∨ (a.2 = b.2 ∧ a.1 ≤ b.1)

instance rankLE.decRel : DecidableRel rankLE :=
  fun a b => by unfold rankLE; infer_instance

instance rankLE.total : IsTotal (Nat × ℤ) rankLE :=
  ⟨by
    intro a b
    unfold rankLE
    rcases lt_trichotomy a.2 b.2 with h | h | h
    · exact Or.inl (Or.inl h)
    · rcases Nat.le_total a.1 b.1 with h2 | h2
      · exact Or.inl (Or.inr ⟨h, h2⟩)
      · exact Or.inr (Or.inr ⟨h.symm, h2⟩)
    · exact Or.inr (Or.inl h)⟩

instance rankLE.trans : IsTrans (Nat × ℤ) rankLE :=
  ⟨by
    intro a b c hab hbc
    unfold rankLE at *
    rcases hab with h1 | ⟨h1, h1n⟩ <;> rcases hbc with h2 | ⟨h2, h2n⟩
    · exact Or.inl (h1.trans h2)
    · exact Or.inl (h2 ▸ h1)
    · exact Or.inl (h1 ▸ h2)
    · exact Or.inr ⟨h1.trans h2, h1n.trans h2n⟩⟩

/-- Modelled from the spec: the first_sent estimator — candidates are the
observed predecessors, scored by the earliest estimated send time across all
controlled nodes and ranked ascending with equal-earliest ties broken by
ascending node id. -/
def first_sent (net : Network) (obs : List EavesdropEvent) : List (Nat × ℤ) :=
  let pairs := firstSentPairs net obs
  ((pairs.map Prod.fst).dedup.map (fun c => (c, candEst pairs c))).insertionSort rankLE

/-- Point-mass probability vector over n nodes concentrated at one
candidate. -/
def pointMassDist (n c : Nat) : List ℚ :=
  (List.range n).map (fun i => if i = c then 1 else 0)

/-- Uniform probability vector over n nodes (the dummy estimator's
prediction). -/
def uniformDist (n : Nat) : List ℚ :=
  List.replicate n (1 / (n : ℚ))

/-- Modelled from the spec: ranked candidate list of an estimator, padded
with the remaining nodes. -/
def predictionRanking (est : Estimator) (net : Network) (n : Nat) (obs : List EavesdropEvent) :
    List Nat :=
  match est with
  | .first_reach =>
    match firstReachCandidate obs with
    | none => List.range n
    | some c => c :: (List.range n).filter (fun v => decide (v ≠ c))
  | .first_sent =>
    let r := (first_sent net obs).map Prod.fst
    r ++ (List.range n).filter (fun v => decide (v ∉ r))
  | .dummy => List.range n

/-- Modelled from the spec: predicted probability distribution of an
estimator — a point mass on the top candidate for the timing estimators, the
uniform distribution for dummy or when nothing was observed. -/
def predictionDist (est : Estimator) (net : Network) (n : Nat) (obs : List EavesdropEvent) :
    List ℚ :=
  match est with
  | .first_reach =>
    match firstReachCandidate obs with
    | none => uniformDist n
    | some c => pointMassDist n c
  | .first_sent =>
    match (first_sent net obs).head? with
    | none => uniformDist n
    | some pr => pointMassDist n pr.1
  | .dummy => uniformDist n

/-- Modelled from the spec: the onion-routing adversary's timing-correlation
prediction — it matches receive timestamps across controlled relay nodes and
outputs the single most likely candidate, a point mass (its output is
documented as containing only the most likely candidate). -/
def onionPredictCandidate (obs : List EavesdropEvent) : Option Nat :=
  (earliestObs obs).map (fun e => match e.pred with | some p => p | none => e.node)

/-- Predicted distribution of the onion-routing adversary. -/
def onionPredictDist (n : Nat) (obs : List EavesdropEvent) : List ℚ :=
  match onionPredictCandidate obs with
  | none => uniformDist n
  | some c => pointMassDist n c

/-- Modelled from the spec: per-trial hit ratio — 1 if the top-ranked
candidate equals the true source, else 0. -/
def hit_ratio (ranking : List Nat) (src : Nat) : ℚ :=
  if ranking.head? = some src then 1 else 0

/-- One-based rank position of the true source in the ranked list. -/
def rankOf (ranking : List Nat) (src : Nat) : Nat :=
  ranking.indexOf src + 1

/-- Modelled from the spec: inverse rank metric, one over the 1-based rank of
the true source. -/
def inverse_rank (ranking : List Nat) (src : Nat) : ℚ :=
  1 / (rankOf ranking src : ℚ)

/-- Modelled from the spec: NDCG with binary relevance at the true source,
one over log2 of rank plus one. -/
noncomputable def ndcg (ranking : List Nat) (src : Nat) : ℝ :=
  1 / Real.logb 2 ((rankOf ranking src : ℝ) + 1)

/-- Normalization of a score vector to sum one (left unchanged when the total
is zero). -/
def normalizeDist (l : List ℚ) : List ℚ :=
  if l.sum = 0 then l else l.map (fun x => x / l.sum)

/-- Entropy of a probability vector, the sum of negMulLog of its entries. -/
noncomputable def entropyRaw (dist : List ℚ) : ℝ :=
  (dist.map (fun q : ℚ => Real.negMulLog ((q : ℝ)))).sum

/-- Modelled from the spec: prediction entropy — minus the sum of p log p
over the predicted score distribution normalized to sum to 1. -/
noncomputable def entropyOf (dist : List ℚ) : ℝ :=
  entropyRaw (normalizeDist dist)

/-- Modelled from the spec: fraction of nodes with a recorded arrival by
trial end. -/
def message_spread_ratio (n : Nat) (log : List ArrivalEvent) : ℚ :=
  (log.length : ℚ) / (n : ℚ)

/-- Mean of a rational sample. -/
def meanQ (l : List ℚ) : ℚ :=
  l.sum / (l.length : ℚ)

/-- Mean of a real sample. -/
noncomputable def meanR (l : List ℝ) : ℝ :=
  l.sum / (l.length : ℝ)

/-- Standard deviation of a real sample. -/
noncomputable def stdR (l : List ℝ) : ℝ :=
  Real.sqrt (meanR (l.map (fun x => (x - meanR l) ^ 2)))

/-- Static configuration of one simulation: topology, protocol, adversary,
message count, source-sampling mode, and the fuel bound of the flooding
loop. -/
structure SimConfig where
  net : Network
  protocol : ProtocolCfg
  adv : Adversary
  num_msg : Nat
  use_node_weights : Bool
  floodFuel : Nat

/-- Source-sampling pool: every node not controlled by the adversary. -/
def eligibleSources (cfg : SimConfig) : List Nat :=
  (List.range cfg.net.numNodes).filter (fun v => decide (v ∉ cfg.adv.nodes))

/-- Total sampling weight of the eligible source nodes. -/
def totalWeight (cfg : SimConfig) : ℤ :=
  ((eligibleSources cfg).map cfg.net.nodeWeight).sum

/-- Cumulative-weight selection of a node given a draw in [0, total). -/
def weightedPickAux : List (Nat × ℤ) → ℤ → Nat → Nat
  | [], _, dflt => dflt
  | (v, w) :: rest, r, dflt => if r < w then v else weightedPickAux rest (r - w) dflt

/-- Modelled from the spec: sampling of the i-th message source — weighted by
node weight when use_node_weights, uniform otherwise, always from the
eligible (non-adversarial) pool, driven by the explicitly seeded
generator. -/
def sampleSource (cfg : SimConfig) (seed i : Nat) : Nat :=
  let el := eligibleSources cfg
  if cfg.use_node_weights then
    let r := ((mix seed 4 i : ℤ) * totalWeight cfg).fdiv (rngMod : ℤ)
    weightedPickAux (el.map (fun v => (v, cfg.net.nodeWeight v))) r 0
  else el.getD (mix seed 4 i % el.length) 0

/-- Simulator instance: configuration, seed and the message sources sampled
at construction time. -/
structure Simulator where
  cfg : SimConfig
  seed : Nat
  sources : List Nat

/-- Modelled from the spec and README: Simulator construction — message
sources are sampled at construction, excluding adversary-controlled nodes; an
empty eligible pool or a zero-sum sampling-weight distribution is rejected
with an error before any simulation work begins. -/
def Simulator.build (cfg : SimConfig) (seed : Nat) : Except String Simulator :=
  if (eligibleSources cfg).isEmpty then .error "no eligible source nodes"
  else if cfg.use_node_weights = true ∧ totalWeight cfg ≤ 0 then
    .error "sampling weights must have positive sum"
  else .ok ⟨cfg, seed, (List.range cfg.num_msg).map (sampleSource cfg seed)⟩

/-- Per-trial outcome stored by the simulator. -/
structure SimulationRun where
  arrivalLog : List ArrivalEvent
  eavesdropLog : List EavesdropEvent
  coverage : ℚ
  trueSource : Nat
deriving DecidableEq

/-- Ceiling of threshold times node count, computed on the threshold's
numerator and denominator. -/
def capOfThreshold (t : ℚ) (n : Nat) : Nat :=
  (-((-(t.num * (n : ℤ))).fdiv (t.den : ℤ))).toNat

/-- Blocking predicate induced by an adversary: its controlled nodes stop
forwarding exactly when the adversary is active. -/
def Adversary.blockedFun (adv : Adversary) : Nat → Bool :=
  fun v => adv.active && adv.nodes.contains v

/-- Modelled from the repository README: Simulator.run — every message is
propagated and logged; the coverage threshold DEFAULTS to 0.9, exactly as the
README documents: by default every message is only simulated until it
reaches 90 percent of all nodes. -/
def Simulator.run (sim : Simulator) (coverage_threshold : ℚ := mkRat 9 10) :
    List SimulationRun :=
  let n := sim.cfg.net.numNodes
  let cap : Nat := capOfThreshold coverage_threshold n
  (List.range sim.sources.length).map (fun i =>
    let src := sim.sources.getD i 0
    let log := propagateMsg sim.cfg.protocol sim.cfg.net sim.seed sim.cfg.adv.blockedFun
      (some cap) i src sim.cfg.floodFuel
    ⟨log, sim.cfg.adv.observe log, message_spread_ratio n log, src⟩)

/-- Aggregate report: mean and standard deviation of every metric across all
trials, tagged with protocol and estimator identity. -/
structure Report where
  protocol : ProtocolCfg
  estimator : Estimator
  hit_ratio_mean : ℚ
  hit_ratio_std : ℝ
  inverse_rank_mean : ℚ
  inverse_rank_std : ℝ
  ndcg_mean : ℝ
  ndcg_std : ℝ
  entropy_mean : ℝ
  entropy_std : ℝ
  message_spread_ratio_mean : ℚ
  message_spread_ratio_std : ℝ

/-- Modelled from the spec: the evaluator — for each stored trial obtain the
adversary's ranked prediction and distribution, compute every metric against
the true source, and aggregate mean and standard deviation across trials. -/
noncomputable def get_report (cfg : SimConfig) (est : Estimator) (runs : List SimulationRun) :
    Report :=
  let n := cfg.net.numNodes
  let hits := runs.map (fun r => hit_ratio (predictionRanking est cfg.net n r.eavesdropLog) r.trueSource)
  let invs := runs.map (fun r => inverse_rank (predictionRanking est cfg.net n r.eavesdropLog) r.trueSource)
  let ndcgs := runs.map (fun r => ndcg (predictionRanking est cfg.net n r.eavesdropLog) r.trueSource)
  let ents := runs.map (fun r => entropyOf (predictionDist est cfg.net n r.eavesdropLog))
  let sprs := runs.map SimulationRun.coverage
  ⟨cfg.protocol, est,
    meanQ hits, stdR (hits.map (fun q => (q : ℝ))),
    meanQ invs, stdR (invs.map (fun q => (q : ℝ))),
    meanR ndcgs, stdR ndcgs,
    meanR ents, stdR ents,
    meanQ sprs, stdR (sprs.map (fun q => (q : ℝ)))⟩

/-- Modelled from the spec: the full experiment pipeline — build the
simulator from configuration and seed, run every trial, and evaluate,
returning the arrival logs, the eavesdrop logs and the report. -/
noncomputable def runPipeline (cfg : SimConfig) (thr : ℚ) (est : Estimator) (seed : Nat) :
    Except String (List (List ArrivalEvent) × List (List EavesdropEvent) × Report) :=
  match Simulator.build cfg seed with
  | .error e => .error e
  | .ok sim =>
    let runs := sim.run thr
    .ok (runs.map SimulationRun.arrivalLog, runs.map SimulationRun.eavesdropLog,
      get_report cfg est runs)

/-- Three-node triangle network with unit latencies and unit node weights,
used as a concrete test topology. -/
def triNet : Network :=
  ⟨3, fun v => [(v + 1) % 3, (v + 2) % 3], fun _ _ => 1, fun _ => 1⟩

/-- Ten-node path network with unit latencies and unit node weights. -/
def pathNet : Network :=
  ⟨10, fun v => if v = 0 then [1] else if v = 9 then [8] else [v - 1, v + 1],
    fun _ _ => 1, fun _ => 1⟩

/-- Concrete simulation configuration over the path network: plain broadcast
to all neighbours, no adversary, one message. -/
def pathCfg : SimConfig :=
  ⟨pathNet, .broadcast .all, ⟨[], false⟩, 1, false, 60⟩

/-- Concrete simulation configuration over the triangle network. -/
def triCfg : SimConfig :=
  ⟨triNet, .dandelion (1 / 2) .all, ⟨[2], false⟩, 2, false, 40⟩

/-- Configuration whose node weights sum to zero, exercising the zero-sum
sampling-weight validation. -/
def zeroWeightCfg : SimConfig :=
  ⟨⟨3, fun _ => [], fun _ _ => 1, fun _ => 0⟩, .broadcast .all, ⟨[], false⟩, 1, true, 5⟩

/-- Concrete eavesdrop observations used as witness data for the
estimators. -/
def obsSample : List EavesdropEvent :=
  [⟨2, 5, some 1⟩, ⟨4, 7, some 1⟩, ⟨5, 6, some 3⟩]

/-- Concrete flooding configuration over the triangle network with no
blocking and no coverage cap. -/
def triFloodCfg : FloodCfg :=
  ⟨triNet, 0, .all, fun _ => false, none⟩

/-- Concrete flooding state whose queued event sits at a node that already
has a recorded arrival. -/
def dupState : FloodState :=
  ⟨[⟨0, 2, 0, none⟩], [⟨2, 0, 0, .fluff, none⟩]⟩

/-- Nodes the flooding loop can reach from an initial queue, given the
already-visited node set V (visited nodes do not re-broadcast) and the
blocking predicate (controlled active adversary nodes do not forward). -/
inductive FReach (cfg : FloodCfg) (V : List Nat) (q : List QEvent) : Nat → Prop
  | base (e : QEvent) : e ∈ q → FReach cfg V q e.node
  | step (u v : Nat) : FReach cfg V q u → u ∉ V → cfg.blocked u = false →
      v ∈ fanout cfg.seed cfg.mode u (cfg.net.adj u) → FReach cfg V q v

/-- Worklist invariant of the flooding loop: every recorded node outside the
initially visited set that is allowed to forward has each of its fan-out
neighbours either already recorded or still pending in the queue. -/
def FloodInv (cfg : FloodCfg) (V0 : List Nat) (st : FloodState) : Prop :=
  ∀ u ∈ arrivedNodes st, u ∉ V0 → cfg.blocked u = false →
    ∀ v ∈ fanout cfg.seed cfg.mode u (cfg.net.adj u),
      v ∈ arrivedNodes st ∨ ∃ e ∈ st.queue, e.node = v

/-- Final flooding state of one full message propagation (the arrival log of
propagateCore together with the remaining queue). -/
def propagateState (stepF : Nat → Nat → Nat → Bool × Nat × Nat) (blocked : Nat → Bool)
    (net : Network) (seed : Nat) (mode : BroadcastMode) (cap : Option Nat) (src : Nat)
    (rng0 : Nat) (floodFuel : Nat) : FloodState :=
  let cfg : FloodCfg := ⟨net, seed, mode, blocked, cap⟩
  let w := anonWalk stepF blocked net.latency net.numNodes src 0 0 none rng0 [src]
  if w.censored then ⟨[], ⟨src, 0, 0, Phase.stem, none⟩ :: w.events⟩
  else if w.exitHop = 0 then flood cfg floodFuel (initState src)
  else
    flood cfg floodFuel ⟨schedule cfg ⟨w.exitTime, w.exitNode, w.exitHop, w.exitPred⟩,
      ⟨src, 0, 0, Phase.stem, none⟩ :: w.events⟩

end EthP2PSim

namespace EthP2PSim

lemma rngMod_pos : 0 < rngMod := by
  unfold rngMod
  omega

lemma rngNext_fst_lt (s : Nat) : (rngNext s).1 < rngMod := by
  simp only [rngNext]
  exact Nat.mod_lt _ rngMod_pos

lemma bernoulli_one_true (rng : Nat) : (bernoulli 1 rng).1 = true := by
  have h := rngNext_fst_lt rng
  simp only [bernoulli, decide_eq_true_iff]
  have hden : (((1 : ℚ).den : ℤ)) = 1 := by norm_num
  have hnum : ((1 : ℚ).num) = 1 := by norm_num
  rw [hden, hnum, mul_one, one_mul]
  exact_mod_cast h

/-- A Dandelion walk with spreading probability one exits immediately: no
stem events, exit at the entry node with the entry time and hop count. -/
lemma anonWalk_one_exit (cyc : List Nat) (bl : Nat → Bool) (lat : Nat → Nat → ℤ)
    (m cur : Nat) (t : ℤ) (hop : Nat) (pred : Option Nat) (rng : Nat) (visited : List Nat) :
    ∃ r, anonWalk (dandelionStep 1 cyc) bl lat m cur t hop pred rng visited =
      ⟨[], cur, t, hop, pred, r, false⟩ := by
  cases m with
  | zero => exact ⟨rng, rfl⟩
  | succ f =>
    refine ⟨(bernoulli 1 rng).2, ?_⟩
    simp only [anonWalk, dandelionStep, bernoulli_one_true, if_true]

/-- C2: for every network topology and every seed, DandelionProtocol with
spreading_proba = 1 produces, for every message, exactly the same
ArrivalEvent log as BroadcastProtocol with the same broadcast_mode and the
same seed (for every blocking predicate and coverage cap), and the STEM
phase length is always 0. -/
theorem C2_dandelion_one_eq_broadcast (net : Network) (seed : Nat) (mode : BroadcastMode)
    (blocked : Nat → Bool) (cap : Option Nat) (src rng0 fuel : Nat) :
    DandelionProtocol.propagate ⟨net, 1, mode, seed, lineGraphCycle seed net.numNodes⟩
        blocked cap src rng0 fuel =
      BroadcastProtocol.propagate ⟨net, mode, seed⟩ blocked cap src fuel ∧
    DandelionProtocol.stemLength ⟨net, 1, mode, seed, lineGraphCycle seed net.numNodes⟩
        src rng0 = 0 := by
  obtain ⟨r1, h1⟩ := anonWalk_one_exit (lineGraphCycle seed net.numNodes) blocked net.latency
    net.numNodes src 0 0 none rng0 [src]
  obtain ⟨r2, h2⟩ := anonWalk_one_exit (lineGraphCycle seed net.numNodes) (fun _ => false)
    net.latency net.numNodes src 0 0 none rng0 [src]
  constructor
  · simp only [DandelionProtocol.propagate, propagateCore, h1,
      BroadcastProtocol.propagate]
    norm_num
  · simp only [DandelionProtocol.stemLength, h2]

/-- C1: for every fixed configuration (topology, protocol type and
parameters, adversary controlled-node set and active flag, number of
messages, coverage threshold) and every seed, two executions of the
simulation followed by evaluation produce identical ArrivalEvent logs,
identical EavesdropEvent logs, and identical Report values: the whole
pipeline is a pure function of the configuration and the seed, with no
hidden random state. -/
theorem C1_determinism (c1 c2 : SimConfig) (t1 t2 : ℚ) (e1 e2 : Estimator) (s1 s2 : Nat)
    (hc : c1 = c2) (ht : t1 = t2) (he : e1 = e2) (hs : s1 = s2) :
    runPipeline c1 t1 e1 s1 = runPipeline c2 t2 e2 s2 := by
  subst hc
  subst ht
  subst he
  subst hs
  rfl

/-- Witness for C1: the determinism theorem applied to a concrete
configuration and seed. -/
theorem C1_determinism_witness :
    runPipeline triCfg (9 / 10) .first_reach 42 = runPipeline triCfg (9 / 10) .first_reach 42 :=
  C1_determinism triCfg triCfg (9 / 10) (9 / 10) .first_reach .first_reach 42 42
    rfl rfl rfl rfl

lemma minQ_mem (e : QEvent) (q : List QEvent) : minQ e q ∈ e :: q := by
  induction q generalizing e with
  | nil => simp [minQ]
  | cons x q ih =>
    have h : minQ e (x :: q) = minQ (if qlt x e then x else e) q := rfl
    rw [h]
    by_cases hx : qlt x e
    · rw [if_pos hx]
      exact List.mem_cons_of_mem e (ih x)
    · rw [if_neg hx]
      rcases List.mem_cons.mp (ih e) with h3 | h3
      · exact List.mem_cons.mpr (Or.inl h3)
      · exact List.mem_cons.mpr (Or.inr (List.mem_cons.mpr (Or.inr h3)))

lemma popMin_eq_some {q : List QEvent} {e : QEvent} {rest : List QEvent}
    (h : popMin q = some (e, rest)) : e ∈ q ∧ rest = q.erase e := by
  cases q with
  | nil => simp [popMin] at h
  | cons x t =>
    simp only [popMin, Option.some.injEq, Prod.mk.injEq] at h
    obtain ⟨he, hr⟩ := h
    exact ⟨he ▸ minQ_mem x t, by rw [← he, ← hr]⟩

lemma popMin_perm {q : List QEvent} {e : QEvent} {rest : List QEvent}
    (h : popMin q = some (e, rest)) : q.Perm (e :: rest) := by
  obtain ⟨he, hr⟩ := popMin_eq_some h
  rw [hr]
  exact List.perm_cons_erase he

lemma floodStep_eq_none {cfg : FloodCfg} {st : FloodState}
    (hp : popMin st.queue = none) : floodStep cfg st = st := by
  unfold floodStep
  rw [hp]

lemma floodStep_eq_discard {cfg : FloodCfg} {st : FloodState} {e : QEvent}
    {rest : List QEvent} (hp : popMin st.queue = some (e, rest))
    (hm : e.node ∈ arrivedNodes st) : floodStep cfg st = ⟨rest, st.arrivals⟩ := by
  unfold floodStep
  rw [hp]
  dsimp only
  rw [if_pos hm]

lemma floodStep_eq_record {cfg : FloodCfg} {st : FloodState} {e : QEvent}
    {rest : List QEvent} (hp : popMin st.queue = some (e, rest))
    (hm : e.node ∉ arrivedNodes st) :
    floodStep cfg st =
      if capReached cfg.cap (st.arrivals ++
          [(⟨e.node, e.time, e.hop, Phase.fluff, e.pred⟩ : ArrivalEvent)]).length = true then
        ⟨[], st.arrivals ++ [⟨e.node, e.time, e.hop, Phase.fluff, e.pred⟩]⟩
      else
        ⟨if cfg.blocked e.node = true then rest else rest ++ schedule cfg e,
          st.arrivals ++ [⟨e.node, e.time, e.hop, Phase.fluff, e.pred⟩]⟩ := by
  unfold floodStep
  rw [hp]
  dsimp only
  rw [if_neg hm]

lemma floodStep_nodup (cfg : FloodCfg) (st : FloodState)
    (h : (arrivedNodes st).Nodup) : (arrivedNodes (floodStep cfg st)).Nodup := by
  cases hp : popMin st.queue with
  | none => rw [floodStep_eq_none hp]; exact h
  | some pr =>
    obtain ⟨e, rest⟩ := pr
    by_cases hm : e.node ∈ arrivedNodes st
    · rw [floodStep_eq_discard hp hm]
      exact h
    · rw [floodStep_eq_record hp hm]
      have harr : (List.map ArrivalEvent.node (st.arrivals ++
          [⟨e.node, e.time, e.hop, Phase.fluff, e.pred⟩])).Nodup := by
        rw [List.map_append, List.nodup_append]
        refine ⟨h, by simp, ?_⟩
        intro a ha hb
        simp only [List.map_cons, List.map_nil, List.mem_singleton] at hb
        subst hb
        exact hm ha
      split
      · exact harr
      · exact harr

lemma flood_nodup (cfg : FloodCfg) (fuel : Nat) (st : FloodState)
    (h : (arrivedNodes st).Nodup) : (arrivedNodes (flood cfg fuel st)).Nodup := by
  induction fuel generalizing st with
  | zero => exact h
  | succ f ih => exact ih (floodStep cfg st) (floodStep_nodup cfg st h)

lemma anonWalk_nodup (stepF : Nat → Nat → Nat → Bool × Nat × Nat) (bl : Nat → Bool)
    (lat : Nat → Nat → ℤ) :
    ∀ (fuel cur : Nat) (t : ℤ) (hop : Nat) (pred : Option Nat) (rng : Nat)
      (visited : List Nat), visited.Nodup →
      (((anonWalk stepF bl lat fuel cur t hop pred rng visited).events.map
        ArrivalEvent.node) ++ visited).Nodup := by
  intro fuel
  induction fuel with
  | zero => intro cur t hop pred rng visited hv; simpa [anonWalk] using hv
  | succ f ih =>
    intro cur t hop pred rng visited hv
    show ((anonWalk stepF bl lat (f + 1) cur t hop pred rng visited).events.map
      ArrivalEvent.node ++ visited).Nodup
    rw [anonWalk]
    by_cases hx : (stepF cur hop rng).1 = true
    · simpa [hx] using hv
    · simp only [hx, if_false, Bool.false_eq_true]
      by_cases hvis : (stepF cur hop rng).2.1 ∈ visited
      · simp only [hvis, if_true]
        exact ih _ _ _ _ _ _ hv
      · simp only [hvis, if_false]
        by_cases hb : bl (stepF cur hop rng).2.1 = true
        · simpa [hb] using ⟨hvis, hv⟩
        · simp only [hb, Bool.false_eq_true, if_false, List.map_cons, List.cons_append]
          have h2 := ih (stepF cur hop rng).2.1 (t + lat cur (stepF cur hop rng).2.1)
            (hop + 1) (some cur) (stepF cur hop rng).2.2
            ((stepF cur hop rng).2.1 :: visited) (by simp [hvis, hv])
          exact (List.perm_middle.nodup_iff).mp h2

lemma propagateCore_nodup (stepF : Nat → Nat → Nat → Bool × Nat × Nat) (bl : Nat → Bool)
    (net : Network) (seed : Nat) (mode : BroadcastMode) (cap : Option Nat) (src rng0 fuel : Nat) :
    ((propagateCore stepF bl net seed mode cap src rng0 fuel).map ArrivalEvent.node).Nodup := by
  have hwalk := anonWalk_nodup stepF bl net.latency net.numNodes src 0 0 none rng0 [src]
    (List.nodup_singleton src)
  have hcons : (src :: (anonWalk stepF bl net.latency net.numNodes src 0 0 none rng0
      [src]).events.map ArrivalEvent.node).Nodup :=
    (List.perm_append_singleton src _).nodup_iff.mp hwalk
  simp only [propagateCore]
  by_cases hc : (anonWalk stepF bl net.latency net.numNodes src 0 0 none rng0
      [src]).censored = true
  · rw [if_pos hc]
    simpa using hcons
  · rw [if_neg hc]
    by_cases h0 : (anonWalk stepF bl net.latency net.numNodes src 0 0 none rng0
        [src]).exitHop = 0
    · rw [if_pos h0]
      exact flood_nodup _ fuel _ (by simp [arrivedNodes, initState])
    · rw [if_neg h0]
      refine flood_nodup _ fuel _ ?_
      simpa [arrivedNodes] using hcons

/-- C3: during every message propagation, each node has at most one recorded
ArrivalEvent per message (the arrival log's node list has no duplicates),
and the flooding loop discards a popped event at an already-visited node
without recording anything and without scheduling any further arrival from
that node. -/
theorem C3_first_arrival_only :
    (∀ (pcfg : ProtocolCfg) (net : Network) (seed : Nat) (bl : Nat → Bool)
      (cap : Option Nat) (msgId src fuel : Nat),
      ((propagateMsg pcfg net seed bl cap msgId src fuel).map ArrivalEvent.node).Nodup) ∧
    (∀ (cfg : FloodCfg) (st : FloodState) (e : QEvent) (rest : List QEvent),
      popMin st.queue = some (e, rest) → e.node ∈ arrivedNodes st →
      floodStep cfg st = ⟨rest, st.arrivals⟩) := by
  constructor
  · intro pcfg net seed bl cap msgId src fuel
    exact propagateCore_nodup _ bl net seed (protoMode pcfg) cap src (msgRng seed msgId) fuel
  · intro cfg st e rest hpop hmem
    exact floodStep_eq_discard hpop hmem

/-- Witness for C3: the discard rule applied to a concrete state whose queued
event sits at an already-visited node, and the uniqueness invariant at a
concrete propagation. -/
theorem C3_first_arrival_only_witness :
    floodStep triFloodCfg dupState = ⟨[], dupState.arrivals⟩ ∧
    ((propagateMsg (.dandelion (1 / 2) .all) triNet 0 (fun _ => false) none 0 0 40).map
      ArrivalEvent.node).Nodup :=
  ⟨C3_first_arrival_only.2 triFloodCfg dupState ⟨0, 2, 0, none⟩ [] (by decide) (by decide),
    C3_first_arrival_only.1 (.dandelion (1 / 2) .all) triNet 0 (fun _ => false) none 0 0 40⟩

lemma floodStep_cap {cfg : FloodCfg} {c : Nat} (hcap : cfg.cap = some c) {st : FloodState}
    (h1 : st.arrivals.length ≤ c) (h2 : st.arrivals.length = c → st.queue = []) :
    (floodStep cfg st).arrivals.length ≤ c ∧
    ((floodStep cfg st).arrivals.length = c → (floodStep cfg st).queue = []) := by
  cases hp : popMin st.queue with
  | none => rw [floodStep_eq_none hp]; exact ⟨h1, h2⟩
  | some pr =>
    obtain ⟨e, rest⟩ := pr
    have hne : st.arrivals.length ≠ c := by
      intro hEq
      rw [h2 hEq] at hp
      simp [popMin] at hp
    have hlt : st.arrivals.length < c := lt_of_le_of_ne h1 hne
    by_cases hm : e.node ∈ arrivedNodes st
    · rw [floodStep_eq_discard hp hm]
      exact ⟨h1, fun hEq => (hne hEq).elim⟩
    · rw [floodStep_eq_record hp hm]
      split
      · exact ⟨by simp only [List.length_append, List.length_cons, List.length_nil]; omega,
          fun _ => rfl⟩
      · next hcapR =>
        refine ⟨by simp only [List.length_append, List.length_cons, List.length_nil]; omega, ?_⟩
        intro hEq
        exfalso
        apply hcapR
        rw [hcap]
        simp only [List.length_append, List.length_cons, List.length_nil] at hEq ⊢
        simp [capReached, hEq]

lemma flood_cap {cfg : FloodCfg} {c : Nat} (hcap : cfg.cap = some c) :
    ∀ (fuel : Nat) (st : FloodState), st.arrivals.length ≤ c →
      (st.arrivals.length = c → st.queue = []) →
      (flood cfg fuel st).arrivals.length ≤ c ∧
      ((flood cfg fuel st).arrivals.length = c → (flood cfg fuel st).queue = []) := by
  intro fuel
  induction fuel with
  | zero => exact fun st h1 h2 => ⟨h1, h2⟩
  | succ f ih =>
    intro st h1 h2
    have hstep := floodStep_cap hcap h1 h2
    exact ih (floodStep cfg st) hstep.1 hstep.2

set_option maxRecDepth 8000 in
/-- Counterexample for C9: on a ten-node path network with one plain
broadcast message, invoking Simulator.run without supplying a
coverage_threshold stops the message at 9 of 10 nodes (coverage 9/10),
whereas an explicit threshold of 1 lets the same message cover the whole
network — so run() without a threshold does NOT simulate to completion. -/
theorem C9_counterexample :
    (Simulator.build pathCfg 0).toOption.map
        (fun sim => (Simulator.run sim).map (fun r => r.arrivalLog.length)) = some [9] ∧
    (Simulator.build pathCfg 0).toOption.map
        (fun sim => (Simulator.run sim 1).map (fun r => r.arrivalLog.length)) = some [10] := by
  constructor
  · decide
  · decide

/-- C9 amended: Simulator.run has an implicit default coverage_threshold of
0.9 — exactly what the repository README documents — so invoking run()
without a threshold truncates every message once the coverage cap is
reached; in general a flooding run with cap c never records more than c
arrivals. -/
theorem C9_amended_default_threshold :
    (∀ sim : Simulator, Simulator.run sim = Simulator.run sim (mkRat 9 10)) ∧
    (∀ (cfg : FloodCfg) (c fuel : Nat) (st : FloodState), cfg.cap = some c → 0 < c →
      st.arrivals = [] → (flood cfg fuel st).arrivals.length ≤ c) := by
  constructor
  · intro sim
    rfl
  · intro cfg c fuel st hcap hc harr
    exact (flood_cap hcap fuel st (by simp [harr]) (by simp [harr]; omega)).1

/-- Witness for the amended C9: the default-threshold equation and the cap
bound applied to a concrete flooding run. -/
theorem C9_amended_default_threshold_witness :
    (flood ⟨pathNet, 0, .all, fun _ => false, some 9⟩ 60 (initState 0)).arrivals.length ≤ 9 :=
  C9_amended_default_threshold.2 ⟨pathNet, 0, .all, fun _ => false, some 9⟩ 9 60 (initState 0)
    rfl (by omega) rfl

/-- C5: malformed configuration is rejected with an error at construction
(build) time, before any simulation work begins — spreading_proba or
adversary ratio outside [0,1], num_relayers at least the node count, a
degree/parity combination that cannot form the requested anonymity-graph
invariant, or a zero-sum sampling-weight distribution — and a valid value is
stored exactly as given, never silently clamped. -/
theorem C5_build_validation :
    (∀ (net : Network) (p : ℚ) (mode : BroadcastMode) (seed : Nat), p < 0 ∨ 1 < p →
      ∃ msg, DandelionProtocol.build net p mode seed = .error msg) ∧
    (∀ (net : Network) (p : ℚ) (mode : BroadcastMode) (seed : Nat), p < 0 ∨ 1 < p →
      ∃ msg, DandelionPlusPlusProtocol.build net p mode seed = .error msg) ∧
    (∀ (net : Network) (r : ℚ) (a : Bool) (seed : Nat), r < 0 ∨ 1 < r →
      ∃ msg, Adversary.build net r a seed = .error msg) ∧
    (∀ (net : Network) (k : Nat) (mode : BroadcastMode) (seed : Nat), net.numNodes ≤ k →
      ∃ msg, OnionRoutingProtocol.build net k mode seed = .error msg) ∧
    (∀ (n d seed : Nat), n ≤ d ∨ (n * d) % 2 = 1 →
      ∃ msg, buildApproxRegularOut n d seed = .error msg) ∧
    (∀ (cfg : SimConfig) (seed : Nat), cfg.use_node_weights = true → totalWeight cfg ≤ 0 →
      ∃ msg, Simulator.build cfg seed = .error msg) ∧
    (∀ (net : Network) (p : ℚ) (mode : BroadcastMode) (seed : Nat), 0 ≤ p → p ≤ 1 →
      ∃ pr, DandelionProtocol.build net p mode seed = .ok pr ∧ pr.spreading_proba = p) := by
  refine ⟨?_, ?_, ?_, ?_, ?_, ?_, ?_⟩
  · intro net p mode seed h
    rw [DandelionProtocol.build, if_pos h]
    exact ⟨_, rfl⟩
  · intro net p mode seed h
    rw [DandelionPlusPlusProtocol.build, if_pos h]
    exact ⟨_, rfl⟩
  · intro net r a seed h
    rw [Adversary.build, if_pos h]
    exact ⟨_, rfl⟩
  · intro net k mode seed h
    rw [OnionRoutingProtocol.build, if_pos h]
    exact ⟨_, rfl⟩
  · intro n d seed h
    rw [buildApproxRegularOut, if_pos h]
    exact ⟨_, rfl⟩
  · intro cfg seed hw hz
    rw [Simulator.build]
    by_cases he : (eligibleSources cfg).isEmpty = true
    · rw [if_pos he]
      exact ⟨_, rfl⟩
    · rw [if_neg he, if_pos ⟨hw, hz⟩]
      exact ⟨_, rfl⟩
  · intro net p mode seed h0 h1
    rw [DandelionProtocol.build, if_neg (by push_neg; exact ⟨h0, h1⟩)]
    exact ⟨_, rfl, rfl⟩

/-- Witness for C5: each validation case applied to a concrete malformed (or
valid) configuration. -/
theorem C5_build_validation_witness :
    (∃ msg, DandelionProtocol.build triNet 2 .all 0 = .error msg) ∧
    (∃ msg, DandelionPlusPlusProtocol.build triNet 2 .all 0 = .error msg) ∧
    (∃ msg, Adversary.build triNet 2 false 0 = .error msg) ∧
    (∃ msg, OnionRoutingProtocol.build triNet 3 .all 0 = .error msg) ∧
    (∃ msg, buildApproxRegularOut 3 3 0 = .error msg) ∧
    (∃ msg, Simulator.build zeroWeightCfg 0 = .error msg) ∧
    (∃ pr, DandelionProtocol.build triNet (mkRat 1 2) .all 0 = .ok pr ∧
      pr.spreading_proba = mkRat 1 2) :=
  ⟨C5_build_validation.1 triNet 2 .all 0 (by norm_num),
   C5_build_validation.2.1 triNet 2 .all 0 (by norm_num),
   C5_build_validation.2.2.1 triNet 2 false 0 (by norm_num),
   C5_build_validation.2.2.2.1 triNet 3 .all 0 (by decide),
   C5_build_validation.2.2.2.2.1 3 3 0 (by decide),
   C5_build_validation.2.2.2.2.2.1 zeroWeightCfg 0 rfl (by decide),
   C5_build_validation.2.2.2.2.2.2 triNet (mkRat 1 2) .all 0 (by decide) (by decide)⟩

lemma minFold_mem (t : ℤ) (ts : List ℤ) : minFold t ts ∈ t :: ts := by
  induction ts generalizing t with
  | nil => simp [minFold]
  | cons a ts ih =>
    have h : minFold t (a :: ts) = minFold (min t a) ts := rfl
    rw [h]
    rcases List.mem_cons.mp (ih (min t a)) with h2 | h2
    · rcases min_choice t a with hm | hm
      · exact List.mem_cons.mpr (Or.inl (h2.trans hm))
      · exact List.mem_cons.mpr (Or.inr (List.mem_cons.mpr (Or.inl (h2.trans hm))))
    · exact List.mem_cons.mpr (Or.inr (List.mem_cons.mpr (Or.inr h2)))

lemma minFold_le (t : ℤ) (ts : List ℤ) : ∀ x ∈ t :: ts, minFold t ts ≤ x := by
  induction ts generalizing t with
  | nil =>
    intro x hx
    rw [List.mem_singleton] at hx
    subst hx
    exact le_refl _
  | cons a ts ih =>
    intro x hx
    have h : minFold t (a :: ts) = minFold (min t a) ts := rfl
    rw [h]
    have hmin : minFold (min t a) ts ≤ min t a := ih (min t a) _ (List.mem_cons_self _ _)
    rcases List.mem_cons.mp hx with h1 | h1
    · exact h1 ▸ hmin.trans (min_le_left t a)
    · rcases List.mem_cons.mp h1 with h2 | h2
      · exact h2 ▸ hmin.trans (min_le_right t a)
      · exact ih (min t a) x (List.mem_cons_of_mem _ h2)

lemma candEst_spec (pairs : List (Nat × ℤ)) (c : Nat) (h : c ∈ pairs.map Prod.fst) :
    (∃ q ∈ pairs, q.1 = c ∧ q.2 = candEst pairs c) ∧
    (∀ q ∈ pairs, q.1 = c → candEst pairs c ≤ q.2) := by
  obtain ⟨q0, hq0, hq0c⟩ := List.mem_map.mp h
  have hq0m : q0.2 ∈ (pairs.filter (fun q => decide (q.1 = c))).map Prod.snd :=
    List.mem_map_of_mem _ (List.mem_filter.mpr ⟨hq0, by simp [hq0c]⟩)
  unfold candEst
  split
  · next heq =>
    rw [heq] at hq0m
    simp at hq0m
  · next t ts heq =>
    constructor
    · have hmem : minFold t ts ∈ (pairs.filter (fun q => decide (q.1 = c))).map Prod.snd := by
        rw [heq]
        exact minFold_mem t ts
      obtain ⟨q, hqf, hqs⟩ := List.mem_map.mp hmem
      have hqp := List.mem_filter.mp hqf
      exact ⟨q, hqp.1, by simpa using hqp.2, hqs⟩
    · intro q hq hqc
      have hqm : q.2 ∈ (pairs.filter (fun x => decide (x.1 = c))).map Prod.snd :=
        List.mem_map_of_mem _ (List.mem_filter.mpr ⟨hq, by simp [hqc]⟩)
      rw [heq] at hqm
      exact minFold_le t ts _ hqm

/-- C8: the first_sent estimator computes, for each controlled node's
observed predecessor, estimated_send_time = observed_arrival_time minus the
edge latency between the predecessor and the controlled node; its output is
ranked by earliest estimated send time with equal-earliest ties broken by
ascending node id, its candidates are exactly the observed predecessors, and
every candidate's score is the earliest estimated send time reported for it
across all controlled nodes. -/
theorem C8_first_sent_ranking :
    (∀ (net : Network) (e : EavesdropEvent) (obs : List EavesdropEvent) (p : Nat),
      e.pred = some p →
      firstSentPairs net (e :: obs) =
        (p, e.time - net.latency p e.node) :: firstSentPairs net obs) ∧
    (∀ (net : Network) (obs : List EavesdropEvent),
      List.Sorted rankLE (first_sent net obs)) ∧
    (∀ (net : Network) (obs : List EavesdropEvent),
      ((first_sent net obs).map Prod.fst).Perm
        (((firstSentPairs net obs).map Prod.fst).dedup)) ∧
    (∀ (net : Network) (obs : List EavesdropEvent) (pr : Nat × ℤ),
      pr ∈ first_sent net obs →
      (∃ q ∈ firstSentPairs net obs, q.1 = pr.1 ∧ q.2 = pr.2) ∧
      (∀ q ∈ firstSentPairs net obs, q.1 = pr.1 → pr.2 ≤ q.2)) := by
  refine ⟨?_, ?_, ?_, ?_⟩
  · intro net e obs p h
    simp [firstSentPairs, h]
  · intro net obs
    exact List.sorted_insertionSort rankLE _
  · intro net obs
    refine ((List.perm_insertionSort rankLE _).map Prod.fst).trans ?_
    rw [List.map_map]
    have hid : (Prod.fst ∘ fun c => (c, candEst (firstSentPairs net obs) c)) = id := rfl
    rw [hid, List.map_id]
  · intro net obs pr hpr
    have hpr2 : pr ∈ ((firstSentPairs net obs).map Prod.fst).dedup.map
        (fun c => (c, candEst (firstSentPairs net obs) c)) := by
      simpa [first_sent] using hpr
    obtain ⟨c, hc, hceq⟩ := List.mem_map.mp hpr2
    have hcm : c ∈ (firstSentPairs net obs).map Prod.fst := List.mem_dedup.mp hc
    have hspec := candEst_spec (firstSentPairs net obs) c hcm
    cases hceq
    exact hspec

/-- Witness for C8: each part of the first_sent specification applied to
concrete observations over the triangle network. -/
theorem C8_first_sent_ranking_witness :
    (firstSentPairs triNet (⟨2, 5, some 1⟩ :: [⟨4, 7, some 1⟩, ⟨5, 6, some 3⟩]) =
      (1, 5 - triNet.latency 1 2) :: firstSentPairs triNet [⟨4, 7, some 1⟩, ⟨5, 6, some 3⟩]) ∧
    List.Sorted rankLE (first_sent triNet obsSample) ∧
    ((first_sent triNet obsSample).map Prod.fst).Perm
      (((firstSentPairs triNet obsSample).map Prod.fst).dedup) ∧
    ((∃ q ∈ firstSentPairs triNet obsSample, q.1 = ((1, (4 : ℤ)) : Nat × ℤ).1 ∧
        q.2 = ((1, (4 : ℤ)) : Nat × ℤ).2) ∧
      (∀ q ∈ firstSentPairs triNet obsSample, q.1 = ((1, (4 : ℤ)) : Nat × ℤ).1 →
        ((1, (4 : ℤ)) : Nat × ℤ).2 ≤ q.2)) :=
  ⟨C8_first_sent_ranking.1 triNet ⟨2, 5, some 1⟩ [⟨4, 7, some 1⟩, ⟨5, 6, some 3⟩] 1 rfl,
   C8_first_sent_ranking.2.1 triNet obsSample,
   C8_first_sent_ranking.2.2.1 triNet obsSample,
   C8_first_sent_ranking.2.2.2 triNet obsSample (1, 4) (by decide)⟩

lemma negMulLog_eq_zero_of_nonneg {x : ℝ} (hx : 0 ≤ x) :
    Real.negMulLog x = 0 ↔ x = 0 ∨ x = 1 := by
  constructor
  · intro h
    rw [Real.negMulLog, neg_mul, neg_eq_zero, mul_eq_zero] at h
    rcases h with h | h
    · exact Or.inl h
    · rcases Real.log_eq_zero.mp h with h | h | h
      · exact Or.inl h
      · exact Or.inr h
      · exfalso
        rw [h] at hx
        linarith
  · intro h
    rcases h with h | h <;> rw [h] <;> simp

lemma normalizeDist_of_sum_one {l : List ℚ} (h : l.sum = 1) : normalizeDist l = l := by
  unfold normalizeDist
  rw [if_neg (by rw [h]; norm_num), h]
  simp

lemma entropyRaw_nonneg {l : List ℚ} (h0 : ∀ x ∈ l, 0 ≤ x) (h1 : ∀ x ∈ l, x ≤ 1) :
    0 ≤ entropyRaw l := by
  unfold entropyRaw
  refine List.sum_nonneg ?_
  intro y hy
  rw [List.mem_map] at hy
  obtain ⟨q, hq, hfq⟩ := hy
  rw [← hfq]
  exact Real.negMulLog_nonneg (by exact_mod_cast h0 q hq) (by exact_mod_cast h1 q hq)

lemma entropyRaw_eq_zero_iff {l : List ℚ} (h0 : ∀ x ∈ l, 0 ≤ x) (h1 : ∀ x ∈ l, x ≤ 1) :
    entropyRaw l = 0 ↔ ∀ x ∈ l, x = 0 ∨ x = 1 := by
  constructor
  · intro hz q hq
    have hmm : Real.negMulLog ((q : ℝ)) ∈ l.map (fun p : ℚ => Real.negMulLog ((p : ℝ))) :=
      List.mem_map.mpr ⟨q, hq, rfl⟩
    have hterm : Real.negMulLog ((q : ℝ)) = 0 := by
      refine List.all_zero_of_le_zero_le_of_sum_eq_zero ?_ hz hmm
      intro y hy
      rw [List.mem_map] at hy
      obtain ⟨p, hp, hfp⟩ := hy
      rw [← hfp]
      exact Real.negMulLog_nonneg (by exact_mod_cast h0 p hp) (by exact_mod_cast h1 p hp)
    rcases (negMulLog_eq_zero_of_nonneg (by exact_mod_cast h0 q hq)).mp hterm with h | h
    · left
      exact_mod_cast h
    · right
      exact_mod_cast h
  · intro hall
    refine List.sum_eq_zero ?_
    intro y hy
    rw [List.mem_map] at hy
    obtain ⟨p, hp, hfp⟩ := hy
    rw [← hfp]
    rcases hall p hp with h | h <;> rw [h] <;> simp

lemma sum_le_length_of_le_one {l : List ℚ} (h : ∀ x ∈ l, x ≤ 1) :
    l.sum ≤ (l.length : ℚ) := by
  induction l with
  | nil => simp
  | cons a t ih =>
    rw [List.sum_cons, List.length_cons]
    push_cast
    have ht := ih (fun x hx => h x (List.mem_cons_of_mem _ hx))
    have ha := h a (List.mem_cons_self _ _)
    linarith

lemma uniformDist_sum {n : Nat} (h : 1 ≤ n) : (uniformDist n).sum = 1 := by
  unfold uniformDist
  rw [List.sum_replicate, nsmul_eq_mul]
  have hn : (n : ℚ) ≠ 0 := by exact_mod_cast Nat.one_le_iff_ne_zero.mp h
  field_simp

lemma entropyRaw_uniform {n : Nat} (h : 1 ≤ n) :
    entropyRaw (uniformDist n) = Real.log n := by
  have hn : (n : ℝ) ≠ 0 := by exact_mod_cast Nat.one_le_iff_ne_zero.mp h
  unfold entropyRaw uniformDist
  rw [List.map_replicate, List.sum_replicate, nsmul_eq_mul]
  have hcast : (((1 / (n : ℚ)) : ℚ) : ℝ) = 1 / (n : ℝ) := by push_cast; ring
  rw [hcast]
  rw [Real.negMulLog, one_div, Real.log_inv]
  field_simp

/-- C6: per-trial hit_ratio is 0 or 1 and its aggregate mean lies in [0,1];
inverse_rank lies in (0,1]; ndcg lies in (0,1]; entropy is nonnegative and
equals 0 exactly when the normalized prediction puts every weight on 0 or 1
(a point mass, given total weight one), while the uniform dummy estimator's
entropy equals log of the number of nodes, which is nonzero from two nodes
on. -/
theorem C6_metric_ranges :
    (∀ (ranking : List Nat) (src : Nat), hit_ratio ranking src = 0 ∨ hit_ratio ranking src = 1) ∧
    (∀ l : List ℚ, (∀ x ∈ l, x = 0 ∨ x = 1) → 0 ≤ meanQ l ∧ meanQ l ≤ 1) ∧
    (∀ (ranking : List Nat) (src : Nat), src ∈ ranking →
      0 < inverse_rank ranking src ∧ inverse_rank ranking src ≤ 1) ∧
    (∀ (ranking : List Nat) (src : Nat), src ∈ ranking →
      0 < ndcg ranking src ∧ ndcg ranking src ≤ 1) ∧
    (∀ dist : List ℚ, (∀ x ∈ dist, 0 ≤ x) → dist.sum = 1 →
      0 ≤ entropyOf dist ∧ (entropyOf dist = 0 ↔ ∀ x ∈ dist, x = 0 ∨ x = 1)) ∧
    (∀ n : Nat, 1 ≤ n → entropyOf (uniformDist n) = Real.log n ∧
      (2 ≤ n → entropyOf (uniformDist n) ≠ 0)) := by
  refine ⟨?_, ?_, ?_, ?_, ?_, ?_⟩
  · intro ranking src
    unfold hit_ratio
    split
    · exact Or.inr rfl
    · exact Or.inl rfl
  · intro l h
    have h0 : ∀ x ∈ l, (0 : ℚ) ≤ x := by
      intro x hx
      rcases h x hx with h2 | h2 <;> rw [h2] <;> norm_num
    have h1 : ∀ x ∈ l, x ≤ (1 : ℚ) := by
      intro x hx
      rcases h x hx with h2 | h2 <;> rw [h2] <;> norm_num
    unfold meanQ
    constructor
    · exact div_nonneg (List.sum_nonneg h0) (by positivity)
    · cases l with
      | nil => simp
      | cons a t =>
        have hlen : (0 : ℚ) < ((a :: t).length : ℚ) := by
          simp only [List.length_cons]
          positivity
        rw [div_le_one hlen]
        exact sum_le_length_of_le_one h1
  · intro ranking src _
    unfold inverse_rank
    have hr : (1 : ℚ) ≤ (rankOf ranking src : ℚ) := by
      have : 1 ≤ rankOf ranking src := Nat.le_add_left 1 _
      exact_mod_cast this
    constructor
    · positivity
    · rw [div_le_one (by linarith)]
      exact hr
  · intro ranking src _
    unfold ndcg
    have hr : (2 : ℝ) ≤ (rankOf ranking src : ℝ) + 1 := by
      have : 1 ≤ rankOf ranking src := Nat.le_add_left 1 _
      have h2 : (1 : ℝ) ≤ (rankOf ranking src : ℝ) := by exact_mod_cast this
      linarith
    have hlog : 1 ≤ Real.logb 2 ((rankOf ranking src : ℝ) + 1) := by
      have hb : (1 : ℝ) < 2 := one_lt_two
      calc (1 : ℝ) = Real.logb 2 2 := (Real.logb_self_eq_one hb).symm
        _ ≤ Real.logb 2 ((rankOf ranking src : ℝ) + 1) :=
          Real.logb_le_logb_of_le hb (by norm_num) hr
    constructor
    · exact div_pos one_pos (by linarith)
    · rw [div_le_one (by linarith)]
      exact hlog
  · intro dist h0 hsum
    have h1 : ∀ x ∈ dist, x ≤ (1 : ℚ) := by
      intro x hx
      calc x ≤ dist.sum := List.single_le_sum h0 x hx
        _ = 1 := hsum
    unfold entropyOf
    rw [normalizeDist_of_sum_one hsum]
    exact ⟨entropyRaw_nonneg h0 h1, entropyRaw_eq_zero_iff h0 h1⟩
  · intro n hn
    have hofs : entropyOf (uniformDist n) = entropyRaw (uniformDist n) := by
      unfold entropyOf
      rw [normalizeDist_of_sum_one (uniformDist_sum hn)]
    constructor
    · rw [hofs]
      exact entropyRaw_uniform hn
    · intro h2
      rw [hofs, entropyRaw_uniform hn]
      have : (1 : ℝ) < (n : ℝ) := by exact_mod_cast h2
      exact ne_of_gt (Real.log_pos this)

/-- Witness for C6: the metric-range facts applied to a concrete ranking,
sample and distribution. -/
theorem C6_metric_ranges_witness :
    (hit_ratio [4, 2, 7] 4 = 0 ∨ hit_ratio [4, 2, 7] 4 = 1) ∧
    (0 ≤ meanQ [1, 0] ∧ meanQ [1, 0] ≤ 1) ∧
    (0 < inverse_rank [4, 2, 7] 2 ∧ inverse_rank [4, 2, 7] 2 ≤ 1) ∧
    (0 < ndcg [4, 2, 7] 2 ∧ ndcg [4, 2, 7] 2 ≤ 1) ∧
    (0 ≤ entropyOf [1, 0, 0] ∧ (entropyOf [1, 0, 0] = 0 ↔ ∀ x ∈ ([1, 0, 0] : List ℚ),
      x = 0 ∨ x = 1)) ∧
    (entropyOf (uniformDist 3) = Real.log 3 ∧ (2 ≤ 3 → entropyOf (uniformDist 3) ≠ 0)) :=
  ⟨C6_metric_ranges.1 [4, 2, 7] 4,
   C6_metric_ranges.2.1 [1, 0] (by decide),
   C6_metric_ranges.2.2.1 [4, 2, 7] 2 (by decide),
   C6_metric_ranges.2.2.2.1 [4, 2, 7] 2 (by decide),
   C6_metric_ranges.2.2.2.2.1 [1, 0, 0] (by decide) (by simp),
   C6_metric_ranges.2.2.2.2.2 3 (by decide)⟩

lemma pointMassDist_sum {n c : Nat} (h : c < n) : (pointMassDist n c).sum = 1 := by
  induction n with
  | zero => omega
  | succ m ih =>
    rw [pointMassDist, List.range_succ, List.map_append, List.sum_append]
    by_cases hc : c < m
    · have h1 : (pointMassDist m c).sum = 1 := ih hc
      rw [pointMassDist] at h1
      rw [h1, List.map_cons, List.map_nil, List.sum_cons, List.sum_nil,
        if_neg (by omega : ¬m = c)]
      norm_num
    · have hcm : c = m := by omega
      subst hcm
      have h0 : ((List.range c).map (fun i => if i = c then (1 : ℚ) else 0)).sum = 0 := by
        refine List.sum_eq_zero ?_
        intro y hy
        rw [List.mem_map] at hy
        obtain ⟨i, hi, hfi⟩ := hy
        rw [List.mem_range] at hi
        rw [← hfi, if_neg (by omega)]
      rw [h0, List.map_cons, List.map_nil, List.sum_cons, List.sum_nil, if_pos rfl]
      norm_num

lemma pointMassDist_entries {n c : Nat} :
    ∀ x ∈ pointMassDist n c, x = 0 ∨ x = 1 := by
  intro x hx
  rw [pointMassDist, List.mem_map] at hx
  obtain ⟨i, _, hfi⟩ := hx
  rw [← hfi]
  split
  · exact Or.inr rfl
  · exact Or.inl rfl

lemma pointMassDist_getElem {n c i : Nat} (h : i < n) :
    (pointMassDist n c)[i]? = some (if i = c then (1 : ℚ) else 0) := by
  rw [pointMassDist, List.getElem?_map, List.getElem?_range h]
  rfl

lemma entropyOf_pointMass {n c : Nat} (h : c < n) : entropyOf (pointMassDist n c) = 0 := by
  have h0 : ∀ x ∈ pointMassDist n c, (0 : ℚ) ≤ x := by
    intro x hx
    rcases pointMassDist_entries x hx with h2 | h2 <;> rw [h2] <;> norm_num
  have h1 : ∀ x ∈ pointMassDist n c, x ≤ (1 : ℚ) := by
    intro x hx
    rcases pointMassDist_entries x hx with h2 | h2 <;> rw [h2] <;> norm_num
  unfold entropyOf
  rw [normalizeDist_of_sum_one (pointMassDist_sum h)]
  exact (entropyRaw_eq_zero_iff h0 h1).mpr pointMassDist_entries

/-- C10: whenever the baseline adversary facing plain broadcast has observed
anything (as it always has, the estimators report a candidate), its
prediction — under first_reach or first_sent — is a point-mass distribution,
probability 1 on the single candidate and 0 on every other node, and so is
the onion-routing adversary's timing-correlation prediction; the prediction
entropy of each is therefore exactly 0. -/
theorem C10_point_mass_entropy :
    (∀ (net : Network) (n : Nat) (obs : List EavesdropEvent) (c : Nat),
      firstReachCandidate obs = some c → c < n →
      predictionDist .first_reach net n obs = pointMassDist n c ∧
      (pointMassDist n c).sum = 1 ∧
      (∀ i, i < n → (pointMassDist n c)[i]? = some (if i = c then (1 : ℚ) else 0)) ∧
      entropyOf (predictionDist .first_reach net n obs) = 0) ∧
    (∀ (net : Network) (n : Nat) (obs : List EavesdropEvent) (pr : Nat × ℤ),
      (first_sent net obs).head? = some pr → pr.1 < n →
      predictionDist .first_sent net n obs = pointMassDist n pr.1 ∧
      entropyOf (predictionDist .first_sent net n obs) = 0) ∧
    (∀ (n : Nat) (obs : List EavesdropEvent) (c : Nat),
      onionPredictCandidate obs = some c → c < n →
      onionPredictDist n obs = pointMassDist n c ∧
      entropyOf (onionPredictDist n obs) = 0) := by
  refine ⟨?_, ?_, ?_⟩
  · intro net n obs c hc hcn
    have hdist : predictionDist .first_reach net n obs = pointMassDist n c := by
      simp only [predictionDist, hc]
    refine ⟨hdist, pointMassDist_sum hcn, fun i hi => pointMassDist_getElem hi, ?_⟩
    rw [hdist]
    exact entropyOf_pointMass hcn
  · intro net n obs pr hpr hn
    have hdist : predictionDist .first_sent net n obs = pointMassDist n pr.1 := by
      simp only [predictionDist, hpr]
    refine ⟨hdist, ?_⟩
    rw [hdist]
    exact entropyOf_pointMass hn
  · intro n obs c hc hcn
    have hdist : onionPredictDist n obs = pointMassDist n c := by
      simp only [onionPredictDist, hc]
    refine ⟨hdist, ?_⟩
    rw [hdist]
    exact entropyOf_pointMass hcn

/-- Witness for C10: concrete observations whose first_reach, first_sent and
onion predictions are point masses with zero entropy over three nodes. -/
theorem C10_point_mass_entropy_witness :
    (predictionDist .first_reach triNet 3 obsSample = pointMassDist 3 1 ∧
      (pointMassDist 3 1).sum = 1 ∧
      (∀ i, i < 3 → (pointMassDist 3 1)[i]? = some (if i = 1 then (1 : ℚ) else 0)) ∧
      entropyOf (predictionDist .first_reach triNet 3 obsSample) = 0) ∧
    (predictionDist .first_sent triNet 3 obsSample = pointMassDist 3 1 ∧
      entropyOf (predictionDist .first_sent triNet 3 obsSample) = 0) ∧
    (onionPredictDist 3 obsSample = pointMassDist 3 1 ∧
      entropyOf (onionPredictDist 3 obsSample) = 0) :=
  ⟨C10_point_mass_entropy.1 triNet 3 obsSample 1 (by decide) (by decide),
   C10_point_mass_entropy.2.1 triNet 3 obsSample (1, 4) (by decide) (by decide),
   C10_point_mass_entropy.2.2 3 obsSample 1 (by decide) (by decide)⟩

lemma succ_mod_cancel {n a b : Nat} (ha : a < n) (hb : b < n)
    (h : (a + 1) % n = (b + 1) % n) : a = b := by
  rcases Nat.lt_or_ge (a + 1) n with h1 | h1
  · rw [Nat.mod_eq_of_lt h1] at h
    rcases Nat.lt_or_ge (b + 1) n with h2 | h2
    · rw [Nat.mod_eq_of_lt h2] at h
      omega
    · have hb1 : b + 1 = n := by omega
      rw [hb1, Nat.mod_self] at h
      omega
  · have ha1 : a + 1 = n := by omega
    rw [ha1, Nat.mod_self] at h
    rcases Nat.lt_or_ge (b + 1) n with h2 | h2
    · rw [Nat.mod_eq_of_lt h2] at h
      omega
    · omega

lemma pred_succ_mod {len j : Nat} (h : j < len) :
    ((j + len - 1) % len + 1) % len = j := by
  rcases Nat.eq_zero_or_pos j with hj | hj
  · subst hj
    simp only [Nat.zero_add]
    have h1 : (len - 1) % len = len - 1 := Nat.mod_eq_of_lt (by omega)
    rw [h1]
    have h2 : len - 1 + 1 = len := by omega
    rw [h2, Nat.mod_self]
  · have h1 : j + len - 1 = (j - 1) + len := by omega
    rw [h1, Nat.add_mod_right, Nat.mod_eq_of_lt (by omega : j - 1 < len)]
    have h2 : j - 1 + 1 = j := by omega
    rw [h2, Nat.mod_eq_of_lt h]

lemma cycleSucc_mem {l : List Nat} {v : Nat} (hv : v ∈ l) : cycleSucc l v ∈ l := by
  have hlen : 0 < l.length := List.length_pos.mpr (List.ne_nil_of_mem hv)
  have hidx : (l.indexOf v + 1) % l.length < l.length := Nat.mod_lt _ hlen
  rw [cycleSucc, List.getD_eq_get l v hidx]
  exact List.get_mem l _ _

lemma cycleSucc_inj {l : List Nat} (hl : l.Nodup) {v w : Nat} (hv : v ∈ l) (hw : w ∈ l)
    (h : cycleSucc l v = cycleSucc l w) : v = w := by
  have hlen : 0 < l.length := List.length_pos.mpr (List.ne_nil_of_mem hv)
  have hiv : l.indexOf v < l.length := List.indexOf_lt_length.mpr hv
  have hiw : l.indexOf w < l.length := List.indexOf_lt_length.mpr hw
  have h1 : (l.indexOf v + 1) % l.length < l.length := Nat.mod_lt _ hlen
  have h2 : (l.indexOf w + 1) % l.length < l.length := Nat.mod_lt _ hlen
  rw [cycleSucc, cycleSucc, List.getD_eq_get l v h1, List.getD_eq_get l w h2] at h
  have h3 := (hl.get_inj_iff).mp h
  have h4 : (l.indexOf v + 1) % l.length = (l.indexOf w + 1) % l.length :=
    congrArg Fin.val h3
  exact (List.indexOf_inj hv hw).mp (succ_mod_cancel hiv hiw h4)

lemma cycleSucc_surj {l : List Nat} (hl : l.Nodup) {w : Nat} (hw : w ∈ l) :
    ∃ v ∈ l, cycleSucc l v = w := by
  have hlen : 0 < l.length := List.length_pos.mpr (List.ne_nil_of_mem hw)
  have hjlen : l.indexOf w < l.length := List.indexOf_lt_length.mpr hw
  have hplen : (l.indexOf w + l.length - 1) % l.length < l.length := Nat.mod_lt _ hlen
  refine ⟨l.get ⟨(l.indexOf w + l.length - 1) % l.length, hplen⟩, List.get_mem l _ _, ?_⟩
  have hvmem : l.get ⟨(l.indexOf w + l.length - 1) % l.length, hplen⟩ ∈ l :=
    List.get_mem l _ _
  have hvlt : l.indexOf (l.get ⟨(l.indexOf w + l.length - 1) % l.length, hplen⟩) < l.length :=
    List.indexOf_lt_length.mpr hvmem
  have hividx : l.indexOf (l.get ⟨(l.indexOf w + l.length - 1) % l.length, hplen⟩) =
      (l.indexOf w + l.length - 1) % l.length := by
    have hgets : l.get ⟨l.indexOf (l.get ⟨(l.indexOf w + l.length - 1) % l.length, hplen⟩),
        hvlt⟩ = l.get ⟨(l.indexOf w + l.length - 1) % l.length, hplen⟩ :=
      List.indexOf_get hvlt
    exact congrArg Fin.val ((hl.get_inj_iff).mp hgets)
  have hmod : (l.indexOf (l.get ⟨(l.indexOf w + l.length - 1) % l.length, hplen⟩) + 1) %
      l.length = l.indexOf w := by
    rw [hividx]
    exact pred_succ_mod hjlen
  have hbound : (l.indexOf (l.get ⟨(l.indexOf w + l.length - 1) % l.length, hplen⟩) + 1) %
      l.length < l.length := Nat.mod_lt _ hlen
  rw [cycleSucc, List.getD_eq_get l _ hbound]
  have hfin : (⟨(l.indexOf (l.get ⟨(l.indexOf w + l.length - 1) % l.length, hplen⟩) + 1) %
      l.length, hbound⟩ : Fin l.length) = ⟨l.indexOf w, hjlen⟩ := Fin.ext hmod
  rw [hfin]
  exact List.indexOf_get hjlen

lemma lineGraphCycle_perm (seed n : Nat) :
    (lineGraphCycle seed n).Perm (List.range n) :=
  List.perm_insertionSort _ _

lemma lineGraphCycle_nodup (seed n : Nat) : (lineGraphCycle seed n).Nodup :=
  (lineGraphCycle_perm seed n).nodup_iff.mpr (List.nodup_range n)

lemma mem_lineGraphCycle {seed n v : Nat} : v ∈ lineGraphCycle seed n ↔ v < n := by
  rw [(lineGraphCycle_perm seed n).mem_iff, List.mem_range]

/-- C7: the Dandelion anonymity graph is a permutation (cycle cover): every
node's unique successor is a node, every node has exactly one predecessor;
the graph is built once at protocol construction (DandelionProtocol.build
stores exactly the seed-determined cycle) and the same unchanged graph is
used for every message simulated with that instance (the per-message step
function does not depend on the message). -/
theorem C7_anonymity_graph_invariant :
    (∀ (seed n v : Nat), v < n → cycleSucc (lineGraphCycle seed n) v < n) ∧
    (∀ (seed n w : Nat), w < n →
      ∃! v, v < n ∧ cycleSucc (lineGraphCycle seed n) v = w) ∧
    (∀ (net : Network) (p : ℚ) (mode : BroadcastMode) (seed : Nat) (pr : DandelionProtocol),
      DandelionProtocol.build net p mode seed = .ok pr →
      pr.anonCycle = lineGraphCycle seed net.numNodes) ∧
    (∀ (net : Network) (p : ℚ) (mode : BroadcastMode) (seed m1 m2 s1 s2 : Nat),
      protoStepF (.dandelion p mode) net seed m1 s1 =
        protoStepF (.dandelion p mode) net seed m2 s2) := by
  refine ⟨?_, ?_, ?_, ?_⟩
  · intro seed n v hv
    exact mem_lineGraphCycle.mp (cycleSucc_mem (mem_lineGraphCycle.mpr hv))
  · intro seed n w hw
    obtain ⟨v, hvm, hvs⟩ := cycleSucc_surj (lineGraphCycle_nodup seed n)
      (mem_lineGraphCycle.mpr hw)
    refine ⟨v, ⟨mem_lineGraphCycle.mp hvm, hvs⟩, ?_⟩
    rintro u ⟨hu, hus⟩
    exact cycleSucc_inj (lineGraphCycle_nodup seed n) (mem_lineGraphCycle.mpr hu) hvm
      (hus.trans hvs.symm)
  · intro net p mode seed pr hb
    by_cases h : p < 0 ∨ 1 < p
    · rw [DandelionProtocol.build, if_pos h] at hb
      exact absurd hb (by simp)
    · rw [DandelionProtocol.build, if_neg h] at hb
      cases hb
      rfl
  · intro net p mode seed m1 m2 s1 s2
    rfl

/-- Witness for C7: the permutation facts at a concrete seed and size, and
the build equation at a concrete protocol instance. -/
theorem C7_anonymity_graph_invariant_witness :
    cycleSucc (lineGraphCycle 0 3) 0 < 3 ∧
    (∃! v, v < 3 ∧ cycleSucc (lineGraphCycle 0 3) v = 1) ∧
    (⟨triNet, mkRat 1 2, .all, 0, lineGraphCycle 0 3⟩ : DandelionProtocol).anonCycle =
      lineGraphCycle 0 3 :=
  ⟨C7_anonymity_graph_invariant.1 0 3 0 (by decide),
   C7_anonymity_graph_invariant.2.1 0 3 1 (by decide),
   C7_anonymity_graph_invariant.2.2.1 triNet (mkRat 1 2) .all 0
     ⟨triNet, mkRat 1 2, .all, 0, lineGraphCycle 0 3⟩ rfl⟩

lemma propagateCore_eq_state (stepF : Nat → Nat → Nat → Bool × Nat × Nat) (bl : Nat → Bool)
    (net : Network) (seed : Nat) (mode : BroadcastMode) (cap : Option Nat)
    (src rng0 fuel : Nat) :
    propagateCore stepF bl net seed mode cap src rng0 fuel =
      (propagateState stepF bl net seed mode cap src rng0 fuel).arrivals := by
  unfold propagateCore propagateState
  by_cases hc : (anonWalk stepF bl net.latency net.numNodes src 0 0 none rng0
      [src]).censored = true
  · rw [if_pos hc, if_pos hc]
  · rw [if_neg hc, if_neg hc]
    by_cases h0 : (anonWalk stepF bl net.latency net.numNodes src 0 0 none rng0
        [src]).exitHop = 0
    · rw [if_pos h0, if_pos h0]
    · rw [if_neg h0, if_neg h0]

lemma arrivedNodes_floodStep_mono (cfg : FloodCfg) (st : FloodState) :
    ∀ v ∈ arrivedNodes st, v ∈ arrivedNodes (floodStep cfg st) := by
  intro v hv
  cases hp : popMin st.queue with
  | none => rw [floodStep_eq_none hp]; exact hv
  | some pr =>
    obtain ⟨e, rest⟩ := pr
    by_cases hm : e.node ∈ arrivedNodes st
    · rw [floodStep_eq_discard hp hm]
      exact hv
    · rw [floodStep_eq_record hp hm]
      split
      · simpa [arrivedNodes] using Or.inl (by simpa [arrivedNodes] using hv)
      · simpa [arrivedNodes] using Or.inl (by simpa [arrivedNodes] using hv)

lemma arrivedNodes_flood_mono (cfg : FloodCfg) :
    ∀ (fuel : Nat) (st : FloodState), ∀ v ∈ arrivedNodes st,
      v ∈ arrivedNodes (flood cfg fuel st) := by
  intro fuel
  induction fuel with
  | zero => exact fun st v hv => hv
  | succ f ih =>
    intro st v hv
    exact ih (floodStep cfg st) v (arrivedNodes_floodStep_mono cfg st v hv)

lemma anonWalk_passive_not_censored (stepF : Nat → Nat → Nat → Bool × Nat × Nat)
    (lat : Nat → Nat → ℤ) :
    ∀ (fuel cur : Nat) (t : ℤ) (hop : Nat) (pred : Option Nat) (rng : Nat)
      (visited : List Nat),
      (anonWalk stepF (fun _ => false) lat fuel cur t hop pred rng visited).censored = false := by
  intro fuel
  induction fuel with
  | zero => intros; rfl
  | succ f ih =>
    intro cur t hop pred rng visited
    rw [anonWalk]
    by_cases hx : (stepF cur hop rng).1 = true
    · rw [if_pos hx]
    · rw [if_neg hx]
      by_cases hv : (stepF cur hop rng).2.1 ∈ visited
      · rw [if_pos hv]
        exact ih _ _ _ _ _ _
      · rw [if_neg hv, if_neg Bool.false_ne_true]
        exact ih _ _ _ _ _ _

lemma anonWalk_censored_events_ne (stepF : Nat → Nat → Nat → Bool × Nat × Nat)
    (bl : Nat → Bool) (lat : Nat → Nat → ℤ) :
    ∀ (fuel cur : Nat) (t : ℤ) (hop : Nat) (pred : Option Nat) (rng : Nat)
      (visited : List Nat),
      (anonWalk stepF bl lat fuel cur t hop pred rng visited).censored = true →
      (anonWalk stepF bl lat fuel cur t hop pred rng visited).events ≠ [] := by
  intro fuel
  induction fuel with
  | zero => intro cur t hop pred rng visited hc; exact absurd hc (by simp [anonWalk])
  | succ f ih =>
    intro cur t hop pred rng visited
    rw [anonWalk]
    by_cases hx : (stepF cur hop rng).1 = true
    · rw [if_pos hx]
      intro hc
      exact absurd hc (by simp)
    · rw [if_neg hx]
      by_cases hv : (stepF cur hop rng).2.1 ∈ visited
      · rw [if_pos hv]
        exact ih _ _ _ _ _ _
      · rw [if_neg hv]
        by_cases hb : bl (stepF cur hop rng).2.1 = true
        · rw [if_pos hb]
          intro _
          simp
        · rw [if_neg hb]
          intro _
          simp

lemma anonWalk_hop_le (stepF : Nat → Nat → Nat → Bool × Nat × Nat)
    (bl : Nat → Bool) (lat : Nat → Nat → ℤ) :
    ∀ (fuel cur : Nat) (t : ℤ) (hop : Nat) (pred : Option Nat) (rng : Nat)
      (visited : List Nat),
      hop ≤ (anonWalk stepF bl lat fuel cur t hop pred rng visited).exitHop := by
  intro fuel
  induction fuel with
  | zero => intros; exact le_refl _
  | succ f ih =>
    intro cur t hop pred rng visited
    rw [anonWalk]
    by_cases hx : (stepF cur hop rng).1 = true
    · rw [if_pos hx]
    · rw [if_neg hx]
      by_cases hv : (stepF cur hop rng).2.1 ∈ visited
      · rw [if_pos hv]
        exact le_trans (Nat.le_succ hop) (ih _ _ _ _ _ _)
      · rw [if_neg hv]
        by_cases hb : bl (stepF cur hop rng).2.1 = true
        · rw [if_pos hb]
          exact Nat.le_succ hop
        · rw [if_neg hb]
          exact le_trans (Nat.le_succ hop) (ih _ _ _ _ _ _)

lemma anonWalk_exit_now_events (stepF : Nat → Nat → Nat → Bool × Nat × Nat)
    (bl : Nat → Bool) (lat : Nat → Nat → ℤ) :
    ∀ (fuel cur : Nat) (t : ℤ) (hop : Nat) (pred : Option Nat) (rng : Nat)
      (visited : List Nat),
      (anonWalk stepF bl lat fuel cur t hop pred rng visited).exitHop = hop →
      (anonWalk stepF bl lat fuel cur t hop pred rng visited).events = [] := by
  intro fuel
  cases fuel with
  | zero => intros; rfl
  | succ f =>
    intro cur t hop pred rng visited
    rw [anonWalk]
    by_cases hx : (stepF cur hop rng).1 = true
    · rw [if_pos hx]
      intro _
      rfl
    · rw [if_neg hx]
      by_cases hv : (stepF cur hop rng).2.1 ∈ visited
      · rw [if_pos hv]
        intro hhop
        exfalso
        have := anonWalk_hop_le stepF bl lat f (stepF cur hop rng).2.1
          (t + lat cur (stepF cur hop rng).2.1) (hop + 1) (some cur)
          (stepF cur hop rng).2.2 visited
        omega
      · rw [if_neg hv]
        by_cases hb : bl (stepF cur hop rng).2.1 = true
        · rw [if_pos hb]
          intro hhop
          exfalso
          simp only at hhop
          omega
        · rw [if_neg hb]
          intro hhop
          exfalso
          have := anonWalk_hop_le stepF bl lat f (stepF cur hop rng).2.1
            (t + lat cur (stepF cur hop rng).2.1) (hop + 1) (some cur)
            (stepF cur hop rng).2.2 ((stepF cur hop rng).2.1 :: visited)
          simp only at hhop
          omega

lemma anonWalk_active_passive (stepF : Nat → Nat → Nat → Bool × Nat × Nat)
    (blA : Nat → Bool) (lat : Nat → Nat → ℤ) :
    ∀ (fuel cur : Nat) (t : ℤ) (hop : Nat) (pred : Option Nat) (rng : Nat)
      (visited : List Nat),
      ((anonWalk stepF blA lat fuel cur t hop pred rng visited).censored = false →
        anonWalk stepF blA lat fuel cur t hop pred rng visited =
          anonWalk stepF (fun _ => false) lat fuel cur t hop pred rng visited) ∧
      ∃ rest, (anonWalk stepF (fun _ => false) lat fuel cur t hop pred rng visited).events =
        (anonWalk stepF blA lat fuel cur t hop pred rng visited).events ++ rest := by
  intro fuel
  induction fuel with
  | zero =>
    intro cur t hop pred rng visited
    exact ⟨fun _ => rfl, ⟨[], by simp [anonWalk]⟩⟩
  | succ f ih =>
    intro cur t hop pred rng visited
    rw [anonWalk, anonWalk]
    by_cases hx : (stepF cur hop rng).1 = true
    · rw [if_pos hx, if_pos hx]
      exact ⟨fun _ => rfl, ⟨[], by simp⟩⟩
    · rw [if_neg hx, if_neg hx]
      by_cases hv : (stepF cur hop rng).2.1 ∈ visited
      · rw [if_pos hv, if_pos hv]
        exact ih _ _ _ _ _ _
      · rw [if_neg hv, if_neg hv, if_neg Bool.false_ne_true]
        by_cases hb : blA (stepF cur hop rng).2.1 = true
        · rw [if_pos hb]
          constructor
          · intro hc
            exact absurd hc (by simp)
          · exact ⟨(anonWalk stepF (fun _ => false) lat f (stepF cur hop rng).2.1
              (t + lat cur (stepF cur hop rng).2.1) (hop + 1) (some cur)
              (stepF cur hop rng).2.2 ((stepF cur hop rng).2.1 :: visited)).events, rfl⟩
        · rw [if_neg hb]
          obtain ⟨ih1, rest, ih2⟩ := ih (stepF cur hop rng).2.1
            (t + lat cur (stepF cur hop rng).2.1) (hop + 1) (some cur)
            (stepF cur hop rng).2.2 ((stepF cur hop rng).2.1 :: visited)
          constructor
          · intro hc
            have hceq := ih1 hc
            simp only [hceq]
          · refine ⟨rest, ?_⟩
            simp only [List.cons_append]
            rw [← ih2]

lemma floodStep_sound (cfg : FloodCfg) (V0 : List Nat) (q0 : List QEvent) (st : FloodState)
    (hV : ∀ x ∈ V0, x ∈ arrivedNodes st)
    (hq : ∀ e ∈ st.queue, FReach cfg V0 q0 e.node)
    (harr : ∀ v ∈ arrivedNodes st, v ∈ V0 ∨ FReach cfg V0 q0 v) :
    (∀ x ∈ V0, x ∈ arrivedNodes (floodStep cfg st)) ∧
    (∀ e ∈ (floodStep cfg st).queue, FReach cfg V0 q0 e.node) ∧
    (∀ v ∈ arrivedNodes (floodStep cfg st), v ∈ V0 ∨ FReach cfg V0 q0 v) := by
  cases hp : popMin st.queue with
  | none => rw [floodStep_eq_none hp]; exact ⟨hV, hq, harr⟩
  | some pr =>
    obtain ⟨e, rest⟩ := pr
    have hemem : e ∈ st.queue := (popMin_eq_some hp).1
    have hrest : ∀ e2 ∈ rest, e2 ∈ st.queue := by
      intro e2 he2
      rw [(popMin_eq_some hp).2] at he2
      exact List.mem_of_mem_erase he2
    by_cases hm : e.node ∈ arrivedNodes st
    · rw [floodStep_eq_discard hp hm]
      exact ⟨hV, fun e2 he2 => hq e2 (hrest e2 he2), harr⟩
    · rw [floodStep_eq_record hp hm]
      have hV2 : ∀ x ∈ V0, x ∈ List.map ArrivalEvent.node (st.arrivals ++
          [⟨e.node, e.time, e.hop, Phase.fluff, e.pred⟩]) := by
        intro x hx
        rw [List.map_append]
        exact List.mem_append.mpr (Or.inl (hV x hx))
      have harr2 : ∀ v ∈ List.map ArrivalEvent.node (st.arrivals ++
          [⟨e.node, e.time, e.hop, Phase.fluff, e.pred⟩]), v ∈ V0 ∨ FReach cfg V0 q0 v := by
        intro v hv
        rw [List.map_append] at hv
        rcases List.mem_append.mp hv with h | h
        · exact harr v h
        · simp only [List.map_cons, List.map_nil, List.mem_singleton] at h
          subst h
          exact Or.inr (hq e hemem)
      split
      · exact ⟨hV2, fun e2 he2 => absurd he2 (List.not_mem_nil e2), harr2⟩
      · refine ⟨hV2, ?_, harr2⟩
        intro e2 he2
        by_cases hb : cfg.blocked e.node = true
        · rw [if_pos hb] at he2
          exact hq e2 (hrest e2 he2)
        · rw [if_neg hb] at he2
          rcases List.mem_append.mp he2 with h | h
          · exact hq e2 (hrest e2 h)
          · rw [schedule, List.mem_map] at h
            obtain ⟨v, hvf, hve⟩ := h
            have hnode : e2.node = v := by rw [← hve]
            rw [hnode]
            refine FReach.step e.node v (hq e hemem) ?_ ?_ hvf
            · intro hmem
              exact hm (hV _ hmem)
            · cases hbe : cfg.blocked e.node
              · rfl
              · exact absurd hbe hb

lemma flood_sound (cfg : FloodCfg) (V0 : List Nat) (q0 : List QEvent) :
    ∀ (fuel : Nat) (st : FloodState),
      (∀ x ∈ V0, x ∈ arrivedNodes st) →
      (∀ e ∈ st.queue, FReach cfg V0 q0 e.node) →
      (∀ v ∈ arrivedNodes st, v ∈ V0 ∨ FReach cfg V0 q0 v) →
      ∀ v ∈ arrivedNodes (flood cfg fuel st), v ∈ V0 ∨ FReach cfg V0 q0 v := by
  intro fuel
  induction fuel with
  | zero => exact fun st _ _ harr => harr
  | succ f ih =>
    intro st hV hq harr
    obtain ⟨h1, h2, h3⟩ := floodStep_sound cfg V0 q0 st hV hq harr
    exact ih (floodStep cfg st) h1 h2 h3

lemma floodStep_queue_dichotomy (cfg : FloodCfg) (hcap : cfg.cap = none) (st : FloodState)
    (e : QEvent) (he : e ∈ st.queue) :
    e.node ∈ arrivedNodes (floodStep cfg st) ∨ e ∈ (floodStep cfg st).queue := by
  cases hp : popMin st.queue with
  | none =>
    right
    rw [floodStep_eq_none hp]
    exact he
  | some pr =>
    obtain ⟨m, rest⟩ := pr
    by_cases hm : m.node ∈ arrivedNodes st
    · rw [floodStep_eq_discard hp hm]
      by_cases hem : e = m
      · left
        subst hem
        exact hm
      · right
        rw [(popMin_eq_some hp).2]
        exact (List.mem_erase_of_ne hem).mpr he
    · rw [floodStep_eq_record hp hm, hcap, if_neg (by simp [capReached])]
      by_cases hem : e = m
      · left
        subst hem
        simp only [arrivedNodes, List.map_append]
        exact List.mem_append.mpr (Or.inr (by simp))
      · right
        have herest : e ∈ rest := by
          rw [(popMin_eq_some hp).2]
          exact (List.mem_erase_of_ne hem).mpr he
        by_cases hb : cfg.blocked m.node = true
        · rw [if_pos hb]
          exact herest
        · rw [if_neg hb]
          exact List.mem_append.mpr (Or.inl herest)

lemma flood_queue_arrives (cfg : FloodCfg) (hcap : cfg.cap = none) :
    ∀ (fuel : Nat) (st : FloodState) (e : QEvent), e ∈ st.queue →
      (flood cfg fuel st).queue = [] → e.node ∈ arrivedNodes (flood cfg fuel st) := by
  intro fuel
  induction fuel with
  | zero =>
    intro st e he hq
    rw [show flood cfg 0 st = st from rfl] at hq ⊢
    rw [hq] at he
    exact absurd he (List.not_mem_nil e)
  | succ f ih =>
    intro st e he hq
    rcases floodStep_queue_dichotomy cfg hcap st e he with h | h
    · exact arrivedNodes_flood_mono cfg f (floodStep cfg st) e.node h
    · exact ih (floodStep cfg st) e h hq

lemma floodStep_inv (cfg : FloodCfg) (hcap : cfg.cap = none) (V0 : List Nat)
    (st : FloodState) (h : FloodInv cfg V0 st) : FloodInv cfg V0 (floodStep cfg st) := by
  cases hp : popMin st.queue with
  | none => rw [floodStep_eq_none hp]; exact h
  | some pr =>
    obtain ⟨m, rest⟩ := pr
    have herase := (popMin_eq_some hp).2
    by_cases hm : m.node ∈ arrivedNodes st
    · rw [floodStep_eq_discard hp hm]
      intro u hu huV hubl v hvf
      rcases h u hu huV hubl v hvf with h1 | ⟨e, he, hev⟩
      · exact Or.inl h1
      · by_cases hem : e = m
        · left
          subst hem
          rw [← hev]
          exact hm
        · right
          refine ⟨e, ?_, hev⟩
          rw [herase]
          exact (List.mem_erase_of_ne hem).mpr he
    · rw [floodStep_eq_record hp hm, hcap, if_neg (by simp [capReached])]
      intro u hu huV hubl v hvf
      simp only [arrivedNodes, List.map_append, List.map_cons, List.map_nil] at hu
      rcases List.mem_append.mp hu with hold | hnew
      · rcases h u hold huV hubl v hvf with h1 | ⟨e, he, hev⟩
        · left
          simp only [arrivedNodes, List.map_append]
          exact List.mem_append.mpr (Or.inl h1)
        · by_cases hem : e = m
          · left
            subst hem
            simp only [arrivedNodes, List.map_append]
            exact List.mem_append.mpr (Or.inr (by simp [hev]))
          · right
            have herest : e ∈ rest := by
              rw [herase]
              exact (List.mem_erase_of_ne hem).mpr he
            refine ⟨e, ?_, hev⟩
            by_cases hb : cfg.blocked m.node = true
            · rw [if_pos hb]
              exact herest
            · rw [if_neg hb]
              exact List.mem_append.mpr (Or.inl herest)
      · simp only [List.mem_singleton] at hnew
        subst hnew
        rw [if_neg (by rw [hubl]; exact Bool.false_ne_true)]
        right
        refine ⟨⟨m.time + cfg.net.latency m.node v, v, m.hop + 1, some m.node⟩, ?_, rfl⟩
        refine List.mem_append.mpr (Or.inr ?_)
        rw [schedule, List.mem_map]
        exact ⟨v, hvf, rfl⟩

lemma flood_inv (cfg : FloodCfg) (hcap : cfg.cap = none) (V0 : List Nat) :
    ∀ (fuel : Nat) (st : FloodState), FloodInv cfg V0 st →
      FloodInv cfg V0 (flood cfg fuel st) := by
  intro fuel
  induction fuel with
  | zero => exact fun st h => h
  | succ f ih => exact fun st h => ih (floodStep cfg st) (floodStep_inv cfg hcap V0 st h)

lemma floodInv_init (cfg : FloodCfg) (st0 : FloodState) :
    FloodInv cfg (arrivedNodes st0) st0 :=
  fun _ hu huV _ _ _ => (huV hu).elim

lemma flood_complete (cfg : FloodCfg) (hcap : cfg.cap = none) (fuel : Nat) (st0 : FloodState)
    (hempty : (flood cfg fuel st0).queue = []) :
    ∀ v, FReach cfg (arrivedNodes st0) st0.queue v →
      v ∈ arrivedNodes (flood cfg fuel st0) := by
  have hfin : FloodInv cfg (arrivedNodes st0) (flood cfg fuel st0) :=
    flood_inv cfg hcap (arrivedNodes st0) fuel st0 (floodInv_init cfg st0)
  intro v hv
  induction hv with
  | base e he => exact flood_queue_arrives cfg hcap fuel st0 e he hempty
  | step u v _ huV hubl hvf ih =>
    rcases hfin u ih huV hubl v hvf with h1 | ⟨e, he, _⟩
    · exact h1
    · rw [hempty] at he
      exact absurd he (List.not_mem_nil e)

lemma FReach_mono {net : Network} {seed : Nat} {mode : BroadcastMode} {bl1 bl2 : Nat → Bool}
    {cap1 cap2 : Option Nat} {V : List Nat} {q : List QEvent}
    (himp : ∀ u, bl2 u = true → bl1 u = true) :
    ∀ v, FReach ⟨net, seed, mode, bl1, cap1⟩ V q v →
      FReach ⟨net, seed, mode, bl2, cap2⟩ V q v := by
  intro v h
  induction h with
  | base e he => exact FReach.base e he
  | step u v _ huV hubl hvf ih =>
    refine FReach.step u v ih huV ?_ hvf
    have hubl2 : bl1 u = false := hubl
    cases h2 : bl2 u
    · exact h2
    · exact absurd (himp u h2) (by rw [hubl2]; exact Bool.false_ne_true)

lemma length_le_of_nodup_subset {l1 l2 : List Nat} (h1 : l1.Nodup)
    (hsub : ∀ x ∈ l1, x ∈ l2) : l1.length ≤ l2.length :=
  (h1.subperm (fun x hx => hsub x hx)).length_le

/-- Active flooding records no more arrivals than passive flooding from the
same initial state, provided the passive run drains its queue. -/
lemma flood_blocked_le (net : Network) (seed : Nat) (mode : BroadcastMode) (bl : Nat → Bool)
    (fuelA fuelP : Nat) (st0 : FloodState) (hnodup : (arrivedNodes st0).Nodup)
    (hempty : (flood ⟨net, seed, mode, fun _ => false, none⟩ fuelP st0).queue = []) :
    (flood ⟨net, seed, mode, bl, none⟩ fuelA st0).arrivals.length ≤
      (flood ⟨net, seed, mode, fun _ => false, none⟩ fuelP st0).arrivals.length := by
  have hlenA : (flood ⟨net, seed, mode, bl, none⟩ fuelA st0).arrivals.length =
      (arrivedNodes (flood ⟨net, seed, mode, bl, none⟩ fuelA st0)).length :=
    (List.length_map _ _).symm
  have hlenP : (flood ⟨net, seed, mode, fun _ => false, none⟩ fuelP st0).arrivals.length =
      (arrivedNodes (flood ⟨net, seed, mode, fun _ => false, none⟩ fuelP st0)).length :=
    (List.length_map _ _).symm
  rw [hlenA, hlenP]
  refine length_le_of_nodup_subset (flood_nodup _ fuelA st0 hnodup) ?_
  intro v hv
  have hsound := flood_sound ⟨net, seed, mode, bl, none⟩ (arrivedNodes st0) st0.queue fuelA
    st0 (fun x hx => hx) (fun e he => FReach.base e he) (fun v hv => Or.inl hv) v hv
  rcases hsound with h1 | h1
  · exact arrivedNodes_flood_mono _ fuelP st0 v h1
  · have h2 : FReach ⟨net, seed, mode, fun _ => false, none⟩ (arrivedNodes st0) st0.queue v :=
      FReach_mono (fun u h => absurd h Bool.false_ne_true) v h1
    exact flood_complete _ rfl fuelP st0 hempty v h2

lemma flood_add (cfg : FloodCfg) (a b : Nat) :
    ∀ st : FloodState, flood cfg (a + b) st = flood cfg b (flood cfg a st) := by
  induction a with
  | zero =>
    intro st
    rw [Nat.zero_add]
    rfl
  | succ n ih =>
    intro st
    have h1 : n + 1 + b = (n + b) + 1 := by omega
    rw [h1]
    show flood cfg (n + b) (floodStep cfg st) = _
    rw [ih (floodStep cfg st)]
    rfl

lemma flood_empty (cfg : FloodCfg) (fuel : Nat) :
    ∀ st : FloodState, st.queue = [] → flood cfg fuel st = st := by
  induction fuel with
  | zero => intro st _; rfl
  | succ n ih =>
    intro st hq
    have hstep : floodStep cfg st = st := floodStep_eq_none (by rw [hq]; rfl)
    show flood cfg n (floodStep cfg st) = st
    rw [hstep]
    exact ih st hq

lemma floodStep_arrivals_prefix (cfg : FloodCfg) (st : FloodState) :
    ∃ l, (floodStep cfg st).arrivals = st.arrivals ++ l := by
  cases hp : popMin st.queue with
  | none => exact ⟨[], by rw [floodStep_eq_none hp, List.append_nil]⟩
  | some pr =>
    obtain ⟨e, rest⟩ := pr
    by_cases hm : e.node ∈ arrivedNodes st
    · exact ⟨[], by rw [floodStep_eq_discard hp hm, List.append_nil]⟩
    · refine ⟨[⟨e.node, e.time, e.hop, Phase.fluff, e.pred⟩], ?_⟩
      rw [floodStep_eq_record hp hm]
      split
      · rfl
      · rfl

lemma flood_arrivals_prefix (cfg : FloodCfg) (fuel : Nat) :
    ∀ st : FloodState, ∃ l, (flood cfg fuel st).arrivals = st.arrivals ++ l := by
  induction fuel with
  | zero => exact fun st => ⟨[], (List.append_nil _).symm⟩
  | succ n ih =>
    intro st
    obtain ⟨l1, h1⟩ := floodStep_arrivals_prefix cfg st
    obtain ⟨l2, h2⟩ := ih (floodStep cfg st)
    refine ⟨l1 ++ l2, ?_⟩
    show (flood cfg n (floodStep cfg st)).arrivals = _
    rw [h2, h1, List.append_assoc]

lemma flood_arrivals_le (cfg : FloodCfg) (fuel : Nat) (st : FloodState) :
    st.arrivals.length ≤ (flood cfg fuel st).arrivals.length := by
  obtain ⟨l, hl⟩ := flood_arrivals_prefix cfg fuel st
  rw [hl, List.length_append]
  omega

/-- Once the recorded-arrival count is at or above the cap, the blocking
predicate is irrelevant: both runs discard identically until the first
record, which truncates the queue in either run. -/
lemma flood_cap_sync (net : Network) (seed : Nat) (mode : BroadcastMode)
    (bl1 bl2 : Nat → Bool) (c fuel : Nat) :
    ∀ st : FloodState, c ≤ st.arrivals.length →
      flood ⟨net, seed, mode, bl1, some c⟩ fuel st =
        flood ⟨net, seed, mode, bl2, some c⟩ fuel st := by
  induction fuel with
  | zero => intro st _; rfl
  | succ n ih =>
    intro st hc
    show flood ⟨net, seed, mode, bl1, some c⟩ n (floodStep ⟨net, seed, mode, bl1, some c⟩ st) =
      flood ⟨net, seed, mode, bl2, some c⟩ n (floodStep ⟨net, seed, mode, bl2, some c⟩ st)
    cases hp : popMin st.queue with
    | none =>
      rw [floodStep_eq_none hp, floodStep_eq_none hp]
      exact ih st hc
    | some pr =>
      obtain ⟨e, rest⟩ := pr
      by_cases hm : e.node ∈ arrivedNodes st
      · rw [floodStep_eq_discard hp hm, floodStep_eq_discard hp hm]
        exact ih _ hc
      · have hcapT : capReached (some c) (st.arrivals ++
            [(⟨e.node, e.time, e.hop, Phase.fluff, e.pred⟩ : ArrivalEvent)]).length = true := by
          simp only [capReached, List.length_append, List.length_cons, List.length_nil]
          exact decide_eq_true (by omega)
        rw [floodStep_eq_record hp hm, floodStep_eq_record hp hm, if_pos hcapT, if_pos hcapT]
        refine ih _ ?_
        simp only [List.length_append, List.length_cons, List.length_nil]
        omega

/-- A capped flooding run that ends strictly below the cap never truncated,
so it coincides with the uncapped run. -/
lemma flood_cap_agree (net : Network) (seed : Nat) (mode : BroadcastMode) (bl : Nat → Bool)
    (c : Nat) (fuel : Nat) :
    ∀ st : FloodState,
      (flood ⟨net, seed, mode, bl, some c⟩ fuel st).arrivals.length < c →
      flood ⟨net, seed, mode, bl, some c⟩ fuel st =
        flood ⟨net, seed, mode, bl, none⟩ fuel st := by
  induction fuel with
  | zero => intro st _; rfl
  | succ n ih =>
    intro st hlt
    have hlt2 : (flood ⟨net, seed, mode, bl, some c⟩ n
        (floodStep ⟨net, seed, mode, bl, some c⟩ st)).arrivals.length < c := hlt
    show flood ⟨net, seed, mode, bl, some c⟩ n (floodStep ⟨net, seed, mode, bl, some c⟩ st) =
      flood ⟨net, seed, mode, bl, none⟩ n (floodStep ⟨net, seed, mode, bl, none⟩ st)
    cases hp : popMin st.queue with
    | none =>
      rw [floodStep_eq_none hp] at hlt2
      rw [floodStep_eq_none hp, floodStep_eq_none hp]
      exact ih st hlt2
    | some pr =>
      obtain ⟨e, rest⟩ := pr
      by_cases hm : e.node ∈ arrivedNodes st
      · rw [floodStep_eq_discard hp hm] at hlt2
        rw [floodStep_eq_discard hp hm, floodStep_eq_discard hp hm]
        exact ih _ hlt2
      · by_cases hcap2 : c ≤ st.arrivals.length + 1
        · exfalso
          have hcapT : capReached (some c) (st.arrivals ++
              [(⟨e.node, e.time, e.hop, Phase.fluff, e.pred⟩ : ArrivalEvent)]).length = true := by
            simp only [capReached, List.length_append, List.length_cons, List.length_nil]
            exact decide_eq_true (by omega)
          rw [floodStep_eq_record hp hm, if_pos hcapT] at hlt2
          have hge := flood_arrivals_le ⟨net, seed, mode, bl, some c⟩ n
            ⟨[], st.arrivals ++ [⟨e.node, e.time, e.hop, Phase.fluff, e.pred⟩]⟩
          simp only [List.length_append, List.length_cons, List.length_nil] at hge
          omega
        · have hcapF : ¬(capReached (some c) (st.arrivals ++
              [(⟨e.node, e.time, e.hop, Phase.fluff, e.pred⟩ : ArrivalEvent)]).length = true) := by
            simp only [capReached, List.length_append, List.length_cons, List.length_nil]
            rw [decide_eq_false (by omega)]
            exact Bool.false_ne_true
          have hcapN : ¬(capReached (none : Option Nat) (st.arrivals ++
              [(⟨e.node, e.time, e.hop, Phase.fluff, e.pred⟩ : ArrivalEvent)]).length = true) :=
            Bool.false_ne_true
          rw [floodStep_eq_record hp hm, if_neg hcapF] at hlt2
          rw [floodStep_eq_record hp hm, if_neg hcapF]
          rw [floodStep_eq_record hp hm, if_neg hcapN]
          exact ih _ hlt2

/-- Active flooding records no more arrivals than passive flooding from the
same initial state under any coverage cap, provided the passive run drains
its queue. -/
lemma flood_blocked_le_cap (net : Network) (seed : Nat) (mode : BroadcastMode)
    (bl : Nat → Bool) (cap : Option Nat) (fuelA fuelP : Nat) (st0 : FloodState)
    (hnodup : (arrivedNodes st0).Nodup)
    (hempty : (flood ⟨net, seed, mode, fun _ => false, cap⟩ fuelP st0).queue = []) :
    (flood ⟨net, seed, mode, bl, cap⟩ fuelA st0).arrivals.length ≤
      (flood ⟨net, seed, mode, fun _ => false, cap⟩ fuelP st0).arrivals.length := by
  cases cap with
  | none => exact flood_blocked_le net seed mode bl fuelA fuelP st0 hnodup hempty
  | some c =>
    by_cases hinit : c ≤ st0.arrivals.length
    · rcases Nat.le_total fuelA fuelP with hf | hf
      · obtain ⟨d, hd⟩ := Nat.le.dest hf
        calc (flood ⟨net, seed, mode, bl, some c⟩ fuelA st0).arrivals.length
            = (flood ⟨net, seed, mode, fun _ => false, some c⟩ fuelA st0).arrivals.length := by
              rw [flood_cap_sync net seed mode bl (fun _ => false) c fuelA st0 hinit]
          _ ≤ (flood ⟨net, seed, mode, fun _ => false, some c⟩ fuelP st0).arrivals.length := by
              rw [← hd, flood_add]
              exact flood_arrivals_le _ d _
      · obtain ⟨d, hd⟩ := Nat.le.dest hf
        calc (flood ⟨net, seed, mode, bl, some c⟩ fuelA st0).arrivals.length
            = (flood ⟨net, seed, mode, bl, some c⟩ d
                (flood ⟨net, seed, mode, bl, some c⟩ fuelP st0)).arrivals.length := by
              rw [← flood_add, hd]
          _ = (flood ⟨net, seed, mode, fun _ => false, some c⟩ fuelP st0).arrivals.length := by
              rw [flood_cap_sync net seed mode bl (fun _ => false) c fuelP st0 hinit,
                flood_empty _ d _ hempty]
          _ ≤ (flood ⟨net, seed, mode, fun _ => false, some c⟩ fuelP st0).arrivals.length :=
              le_refl _
    · push_neg at hinit
      by_cases hcapP : c ≤
          (flood ⟨net, seed, mode, fun _ => false, some c⟩ fuelP st0).arrivals.length
      · have hA := (@flood_cap ⟨net, seed, mode, bl, some c⟩ c rfl fuelA st0
          (le_of_lt hinit) (fun hEq => absurd hEq (Nat.ne_of_lt hinit))).1
        exact hA.trans hcapP
      · push_neg at hcapP
        have hagree := flood_cap_agree net seed mode (fun _ => false) c fuelP st0 hcapP
        rw [hagree] at hempty ⊢
        have hlenA : (flood ⟨net, seed, mode, bl, some c⟩ fuelA st0).arrivals.length =
            (arrivedNodes (flood ⟨net, seed, mode, bl, some c⟩ fuelA st0)).length :=
          (List.length_map _ _).symm
        have hlenP : (flood ⟨net, seed, mode, fun _ => false, none⟩ fuelP st0).arrivals.length =
            (arrivedNodes (flood ⟨net, seed, mode, fun _ => false, none⟩ fuelP st0)).length :=
          (List.length_map _ _).symm
        rw [hlenA, hlenP]
        refine length_le_of_nodup_subset (flood_nodup _ fuelA st0 hnodup) ?_
        intro v hv
        have hsound := flood_sound ⟨net, seed, mode, bl, some c⟩ (arrivedNodes st0) st0.queue
          fuelA st0 (fun x hx => hx) (fun e he => FReach.base e he) (fun v hv => Or.inl hv)
          v hv
        rcases hsound with h1 | h1
        · exact arrivedNodes_flood_mono _ fuelP st0 v h1
        · have h2 : FReach ⟨net, seed, mode, fun _ => false, none⟩ (arrivedNodes st0)
              st0.queue v := FReach_mono (fun u h => absurd h Bool.false_ne_true) v h1
          exact flood_complete _ rfl fuelP st0 hempty v h2

lemma walk_cons_nodup (stepF : Nat → Nat → Nat → Bool × Nat × Nat) (bl : Nat → Bool)
    (lat : Nat → Nat → ℤ) (fuel src : Nat) (t : ℤ) (hop : Nat) (pred : Option Nat)
    (rng : Nat) :
    (src :: (anonWalk stepF bl lat fuel src t hop pred rng [src]).events.map
      ArrivalEvent.node).Nodup :=
  (List.perm_append_singleton src _).nodup_iff.mp
    (anonWalk_nodup stepF bl lat fuel src t hop pred rng [src] (List.nodup_singleton src))

/-- The active propagation of one message records no more arrivals than the
passive propagation with the same step function, topology, seed, mode,
coverage cap and entry point, provided the passive run drains its queue. -/
lemma propagateState_le (stepF : Nat → Nat → Nat → Bool × Nat × Nat) (blA : Nat → Bool)
    (net : Network) (seed : Nat) (mode : BroadcastMode) (cap : Option Nat)
    (src rng0 fuel : Nat)
    (hqP : (propagateState stepF (fun _ => false) net seed mode cap src rng0 fuel).queue =
      []) :
    (propagateState stepF blA net seed mode cap src rng0 fuel).arrivals.length ≤
      (propagateState stepF (fun _ => false) net seed mode cap src rng0 fuel).arrivals.length
    := by
  obtain ⟨heq, rest, hpre⟩ := anonWalk_active_passive stepF blA net.latency net.numNodes src
    0 0 none rng0 [src]
  have hPc : (anonWalk stepF (fun _ => false) net.latency net.numNodes src 0 0 none rng0
      [src]).censored = false :=
    anonWalk_passive_not_censored stepF net.latency _ _ _ _ _ _ _
  have hPcn : ¬((anonWalk stepF (fun _ => false) net.latency net.numNodes src 0 0 none
      rng0 [src]).censored = true) := by rw [hPc]; exact Bool.false_ne_true
  simp only [propagateState] at hqP ⊢
  rw [if_neg hPcn] at hqP
  rw [if_neg hPcn]
  by_cases hc : (anonWalk stepF blA net.latency net.numNodes src 0 0 none rng0
      [src]).censored = true
  · rw [if_pos hc]
    by_cases h0 : (anonWalk stepF (fun _ => false) net.latency net.numNodes src 0 0 none
        rng0 [src]).exitHop = 0
    · exfalso
      have hPev : (anonWalk stepF (fun _ => false) net.latency net.numNodes src 0 0 none
          rng0 [src]).events = [] :=
        anonWalk_exit_now_events stepF (fun _ => false) net.latency _ _ _ _ _ _ _ h0
      rw [hPev] at hpre
      have hAev := (List.append_eq_nil.mp hpre.symm).1
      exact anonWalk_censored_events_ne stepF blA net.latency _ _ _ _ _ _ _ hc hAev
    · rw [if_neg h0]
      have hlenA : ((⟨src, 0, 0, Phase.stem, none⟩ :: (anonWalk stepF blA net.latency
          net.numNodes src 0 0 none rng0 [src]).events) : List ArrivalEvent).length =
          (src :: (anonWalk stepF blA net.latency net.numNodes src 0 0 none rng0
            [src]).events.map ArrivalEvent.node).length := by
        simp
      have hsub : ∀ v ∈ src :: (anonWalk stepF blA net.latency net.numNodes src 0 0 none
          rng0 [src]).events.map ArrivalEvent.node,
          v ∈ arrivedNodes (flood ⟨net, seed, mode, fun _ => false, cap⟩ fuel
            ⟨schedule ⟨net, seed, mode, fun _ => false, cap⟩
              ⟨(anonWalk stepF (fun _ => false) net.latency net.numNodes src 0 0 none rng0
                  [src]).exitTime,
                (anonWalk stepF (fun _ => false) net.latency net.numNodes src 0 0 none rng0
                  [src]).exitNode,
                (anonWalk stepF (fun _ => false) net.latency net.numNodes src 0 0 none rng0
                  [src]).exitHop,
                (anonWalk stepF (fun _ => false) net.latency net.numNodes src 0 0 none rng0
                  [src]).exitPred⟩,
              ⟨src, 0, 0, Phase.stem, none⟩ :: (anonWalk stepF (fun _ => false) net.latency
                net.numNodes src 0 0 none rng0 [src]).events⟩) := by
        intro v hv
        refine arrivedNodes_flood_mono _ fuel _ v ?_
        show v ∈ List.map ArrivalEvent.node (⟨src, 0, 0, Phase.stem, none⟩ ::
          (anonWalk stepF (fun _ => false) net.latency net.numNodes src 0 0 none rng0
            [src]).events)
        rw [List.map_cons, hpre, List.map_append]
        rcases List.mem_cons.mp hv with h | h
        · exact h ▸ List.mem_cons_self _ _
        · exact List.mem_cons_of_mem _ (List.mem_append.mpr (Or.inl h))
      have hbound := length_le_of_nodup_subset
        (walk_cons_nodup stepF blA net.latency net.numNodes src 0 0 none rng0) hsub
      calc ((⟨src, 0, 0, Phase.stem, none⟩ :: (anonWalk stepF blA net.latency net.numNodes
            src 0 0 none rng0 [src]).events) : List ArrivalEvent).length
          = (src :: (anonWalk stepF blA net.latency net.numNodes src 0 0 none rng0
              [src]).events.map ArrivalEvent.node).length := hlenA
        _ ≤ _ := hbound.trans (le_of_eq (List.length_map _ _))
  · have hcf : (anonWalk stepF blA net.latency net.numNodes src 0 0 none rng0
        [src]).censored = false := by
      cases h2 : (anonWalk stepF blA net.latency net.numNodes src 0 0 none rng0
          [src]).censored
      · rfl
      · exact absurd h2 hc
    rw [if_neg hc, heq hcf]
    by_cases h0 : (anonWalk stepF (fun _ => false) net.latency net.numNodes src 0 0 none
        rng0 [src]).exitHop = 0
    · rw [if_pos h0] at hqP
      rw [if_pos h0, if_pos h0]
      exact flood_blocked_le_cap net seed mode blA cap fuel fuel (initState src) (by
        simp [arrivedNodes, initState]) hqP
    · rw [if_neg h0] at hqP
      rw [if_neg h0, if_neg h0]
      have hnod : (arrivedNodes (⟨schedule ⟨net, seed, mode, fun _ => false, cap⟩
          ⟨(anonWalk stepF (fun _ => false) net.latency net.numNodes src 0 0 none rng0
              [src]).exitTime,
            (anonWalk stepF (fun _ => false) net.latency net.numNodes src 0 0 none rng0
              [src]).exitNode,
            (anonWalk stepF (fun _ => false) net.latency net.numNodes src 0 0 none rng0
              [src]).exitHop,
            (anonWalk stepF (fun _ => false) net.latency net.numNodes src 0 0 none rng0
              [src]).exitPred⟩,
          ⟨src, 0, 0, Phase.stem, none⟩ :: (anonWalk stepF (fun _ => false) net.latency
            net.numNodes src 0 0 none rng0 [src]).events⟩ : FloodState)).Nodup := by
        simpa [arrivedNodes] using
          walk_cons_nodup stepF (fun _ => false) net.latency net.numNodes src 0 0 none rng0
      exact flood_blocked_le_cap net seed mode blA cap fuel fuel _ hnod hqP

/-- C4: for an identical controlled-node set, identical topology, protocol
configuration and seed, and any coverage cap (including the capped trials
produced by Simulator.run as well as uncapped propagation), every trial's
message_spread_ratio under an active adversary is at most the
message_spread_ratio of the corresponding trial under a passive adversary
(whenever the passive trial runs to completion), so it is never greater. -/
theorem C4_active_le_passive (pcfg : ProtocolCfg) (net : Network) (seed : Nat)
    (nodes : List Nat) (cap : Option Nat) (msgId src fuel : Nat)
    (hqP : (propagateState (protoStepF pcfg net seed msgId src)
        (Adversary.blockedFun ⟨nodes, false⟩) net seed (protoMode pcfg) cap src
        (msgRng seed msgId) fuel).queue = []) :
    message_spread_ratio net.numNodes
        (propagateMsg pcfg net seed (Adversary.blockedFun ⟨nodes, true⟩) cap msgId src
          fuel) ≤
      message_spread_ratio net.numNodes
        (propagateMsg pcfg net seed (Adversary.blockedFun ⟨nodes, false⟩) cap msgId src
          fuel) := by
  have hlen : (propagateMsg pcfg net seed (Adversary.blockedFun ⟨nodes, true⟩) cap msgId
      src fuel).length ≤
      (propagateMsg pcfg net seed (Adversary.blockedFun ⟨nodes, false⟩) cap msgId src
        fuel).length := by
    show (propagateCore (protoStepF pcfg net seed msgId src)
        (Adversary.blockedFun ⟨nodes, true⟩) net seed (protoMode pcfg) cap src
        (msgRng seed msgId) fuel).length ≤
      (propagateCore (protoStepF pcfg net seed msgId src)
        (Adversary.blockedFun ⟨nodes, false⟩) net seed (protoMode pcfg) cap src
        (msgRng seed msgId) fuel).length
    rw [propagateCore_eq_state, propagateCore_eq_state]
    exact propagateState_le (protoStepF pcfg net seed msgId src)
      (Adversary.blockedFun ⟨nodes, true⟩) net seed (protoMode pcfg) cap src
      (msgRng seed msgId) fuel hqP
  unfold message_spread_ratio
  rcases Nat.eq_zero_or_pos net.numNodes with hn | hn
  · rw [hn]
    norm_num
  · have hnq : (0 : ℚ) < (net.numNodes : ℚ) := by exact_mod_cast hn
    rw [div_le_div_iff_of_pos_right hnq]
    exact_mod_cast hlen

/-- Witness for C4: the spread-ratio comparison at a concrete broadcast
configuration over the triangle network with controlled node 1, under the
very coverage cap Simulator.run derives from its default 0.9 threshold. -/
theorem C4_active_le_passive_witness :
    message_spread_ratio triNet.numNodes
        (propagateMsg (.broadcast .all) triNet 0 (Adversary.blockedFun ⟨[1], true⟩)
          (some (capOfThreshold (mkRat 9 10) triNet.numNodes)) 0 0 20) ≤
      message_spread_ratio triNet.numNodes
        (propagateMsg (.broadcast .all) triNet 0 (Adversary.blockedFun ⟨[1], false⟩)
          (some (capOfThreshold (mkRat 9 10) triNet.numNodes)) 0 0 20) :=
  C4_active_le_passive (.broadcast .all) triNet 0 [1]
    (some (capOfThreshold (mkRat 9 10) triNet.numNodes)) 0 0 20 (by decide)

end EthP2PSim

